import Mathlib

/-!
A verification development for the `utfstring` library: UTF-safe string
operations over sequences of 16-bit code units.

A text is modelled as a `List Nat` of code units.  The library's two classes
(`UtfString` and `UtfVisualString`) differ only in the regular expressions they
use to scan for multi-code-unit spans; they are modelled by the `Variant` type,
on which all operations are parametric.

JavaScript `NaN` results are modelled by `Option.none`; the `-1` sentinel of
the index-mapping operations is kept as a genuine `Int` value.  The regex
`exec` loops of the source are modelled by explicit match lists; loops whose
termination is data-dependent (the padding do-while loops) take an explicit
fuel argument, with `none` modelling non-termination (fuel exhaustion).
-/

set_option maxHeartbeats 1000000
set_option maxRecDepth 10000

namespace UtfString

/-- The two classes of the library: `UtfString` (`default`, surrogate pairs
only) and `UtfVisualString` (`visual`, which additionally merges regional
indicator pairs). -/
inductive Variant where
  | default
  | visual
deriving DecidableEq

/-- High surrogate: code unit in `[0xD800, 0xDBFF]`. -/
def isHighSurrogate (c : Nat) : Bool := decide (0xD800 ≤ c ∧ c ≤ 0xDBFF)

/-- Low surrogate: code unit in `[0xDC00, 0xDFFF]`. -/
def isLowSurrogate (c : Nat) : Bool := decide (0xDC00 ≤ c ∧ c ≤ 0xDFFF)

/-- Any surrogate code unit. -/
def isSurrogate (c : Nat) : Bool := isHighSurrogate c || isLowSurrogate c

/-- The regex `[\uD800-\uDBFF][\uDC00-\uDFFF]` (`surrogatePairs`) matching at
code-unit position `i` of `units`. -/
def isSurrogatePairAt (units : List Nat) (i : Nat) : Bool :=
  match units.drop i with
  | hi :: lo :: _ => isHighSurrogate hi && isLowSurrogate lo
  | _ => false

/-- The regex `\uD83C[\uDDE6-\uDDFF]\uD83C[\uDDE6-\uDDFF]`
(`regionalIndicatorPairs`) matching at code-unit position `i` of `units`. -/
def isRegionalPairAt (units : List Nat) (i : Nat) : Bool :=
  match units.drop i with
  | a :: b :: c :: d :: _ =>
      decide (a = 0xD83C) && decide (0xDDE6 ≤ b ∧ b ≤ 0xDDFF) &&
        decide (c = 0xD83C) && decide (0xDDE6 ≤ d ∧ d ≤ 0xDDFF)
  | _ => false

/-- Length of the leftmost alternative of the UTF-safe char scanner matching at
position `i`: `surrogatePairs|[^]` for the default class,
`regionalIndicatorPairs|surrogatePairs|[^]` for the visual class. -/
def spanAt (v : Variant) (units : List Nat) (i : Nat) : Nat :=
  match v with
  | .default => if isSurrogatePairAt units i then 2 else 1
  | .visual =>
      if isRegionalPairAt units i then 4
      else if isSurrogatePairAt units i then 2 else 1

/-- `createUtfSafeCharScanner` of the class: the match (with its length) the
scanner's pattern produces at position `i`, `none` if it does not match
there.  The `[^]` alternative matches any single code unit, so the pattern
matches exactly at positions inside the string. -/
def safeMatchAt (v : Variant) (units : List Nat) (i : Nat) : Option Nat :=
  if i < units.length then some (spanAt v units i) else none

/-- `createSurrogatePairScanner`: matches (length 2) exactly where a surrogate
pair begins. -/
def surrogatePairMatchAt (units : List Nat) (i : Nat) : Option Nat :=
  if isSurrogatePairAt units i then some 2 else none

/-- `createUnsafeUtfCharFinder` of the class: surrogate pairs for the default
class; regional indicator pairs or surrogate pairs for the visual class. -/
def unsafeMatchAt (v : Variant) (units : List Nat) (i : Nat) : Option Nat :=
  match v with
  | .default => surrogatePairMatchAt units i
  | .visual =>
      if isRegionalPairAt units i then some 4 else surrogatePairMatchAt units i

/-- Fuel-driven search for the leftmost match of `matchAt` at a position
`≥ p`; the fuel is the number of positions still to examine. -/
def matchFromA (matchAt : Nat → Option Nat) : Nat → Nat → Option (Nat × Nat)
  | 0, _ => none
  | fuel + 1, p =>
      match matchAt p with
      | some l => some (p, l)
      | none => matchFromA matchAt fuel (p + 1)

/-- `scanner.exec` with `lastIndex = p` on a string of length `len`: the
leftmost match `(index, length)` at a position in `[p, len)`, if any. -/
def matchFrom (matchAt : Nat → Option Nat) (len p : Nat) : Option (Nat × Nat) :=
  matchFromA matchAt (len - p) p

/-- Fuel-driven chain of global-regex matches starting at position `p`:
each `exec` resumes just after the previous match. -/
def matchListA (matchAt : Nat → Option Nat) (len : Nat) :
    Nat → Nat → List (Nat × Nat)
  | 0, _ => []
  | fuel + 1, p =>
      match matchFrom matchAt len p with
      | none => []
      | some (i, l) => (i, l) :: matchListA matchAt len fuel (i + Nat.max l 1)

/-- The full sequence of matches a global regex produces on a string of length
`len`.  There are at most `len` matches, so fuel `len + 1` is sufficient. -/
def matchList (matchAt : Nat → Option Nat) (len : Nat) (p : Nat) :
    List (Nat × Nat) :=
  matchListA matchAt len (len + 1) p

/-- `containsUnsafeUtfChars`: whether the class's unsafe-char finder matches
anywhere in the string (`regex.test`). -/
def containsUnsafeUtfChars (v : Variant) (units : List Nat) : Bool :=
  (matchFrom (unsafeMatchAt v units) units.length 0).isSome

/-- The inner `while` loop of `scan`, walking `byteIndex`/`curCharIndex` in
lockstep until `byteIndex` reaches the next match (consuming it) or
`curCharIndex` reaches `charIndex`.  The fuel is `(charIndex - c).toNat`,
which is exactly the remaining iteration count of the loop. -/
def scanInnerA (charIndex nextIdx matchLen : Int) :
    Nat → Int → Int → Int × Int
  | 0, b, c => (b, c)
  | fuel + 1, b, c =>
      if c < charIndex then
        if b = nextIdx then (b + matchLen, c + 1)
        else scanInnerA charIndex nextIdx matchLen fuel (b + 1) (c + 1)
      else (b, c)

/-- The inner `while` loop of `scan` from state `(b, c)`. -/
def scanInner (charIndex nextIdx matchLen b c : Int) : Int × Int :=
  scanInnerA charIndex nextIdx matchLen (charIndex - c).toNat b c

/-- The outer `while (true)` loop of `scan`: one iteration per `exec`; the
remaining matches of the scanner are passed as a list (an exhausted scanner
returns `null`, modelled by the `[]` case with `nextIdx = len` and a step
width of 1). -/
def scanLoop (len : Nat) (charIndex : Int) :
    List (Nat × Nat) → Int → Int → Int
  | [], b, c =>
      let r := scanInner charIndex (len : Int) 1 b c
      if r.2 = charIndex then r.1 else -1
  | (i, l) :: rest, b, c =>
      let r := scanInner charIndex (i : Int) (l : Int) b c
      if r.2 = charIndex then r.1
      else if (len : Int) ≤ r.1 then -1
      else scanLoop len charIndex rest r.1 r.2

/-- `UtfString.scan(str, scanner, charIndex)`: the byte index at which the scan
reaches character index `charIndex`, or `-1`.  Fast exit: if the string
contains no unsafe UTF chars the char index is returned unchanged. -/
def scan (v : Variant) (units : List Nat) (matchAt : Nat → Option Nat)
    (charIndex : Int) : Int :=
  if !containsUnsafeUtfChars v units then charIndex
  else scanLoop units.length charIndex (matchList matchAt units.length 0) 0 0

/-- The counting loop of `findCharIndex`: count the leading matches whose end
(`scanner.lastIndex` after the `exec`) is `≤ byteIndex`. -/
def countChars : List (Nat × Nat) → Int → Int
  | [], _ => 0
  | (i, l) :: rest, byteIndex =>
      if byteIndex < ((i + l : Nat) : Int) then 0
      else countChars rest byteIndex + 1

/-- `UtfString.findCharIndex(str, byteIndex)`: the character index of the
logical character covering code-unit position `byteIndex`; `-1` if
`byteIndex` is not below the code-unit length. -/
def findCharIndex (v : Variant) (units : List Nat) (byteIndex : Int) : Int :=
  if (units.length : Int) ≤ byteIndex then -1
  else if !containsUnsafeUtfChars v units then byteIndex
  else countChars (matchList (safeMatchAt v units) units.length 0) byteIndex

/-- `UtfString.lengthOf(str)`: the number of logical characters,
`findCharIndex(str, str.length - 1) + 1`. -/
def lengthOf (v : Variant) (units : List Nat) : Int :=
  findCharIndex v units ((units.length : Int) - 1) + 1

/-- `UtfString.findByteIndex(str, charIndex)`: the starting code-unit index of
the `charIndex`-th logical character, `-1` if `charIndex` is not below the
logical length. -/
def findByteIndex (v : Variant) (units : List Nat) (charIndex : Int) : Int :=
  if lengthOf v units ≤ charIndex then -1
  else scan v units (safeMatchAt v units) charIndex

/-- `UtfString.findSurrogateByteIndex(str, charIndex)`: `scan` with the
surrogate-pair-only scanner (the base module's scanner, for every class). -/
def findSurrogateByteIndex (v : Variant) (units : List Nat)
    (charIndex : Int) : Int :=
  scan v units (surrogatePairMatchAt units) charIndex

/-- `UtfString.charAt(str, index)`: slice eight code units at the byte index of
the character and take the first match of the UTF-safe scanner in it
(`characters[0]` if there is no match, which only happens on an empty
slice, where JavaScript yields `undefined`, modelled as `[]`). -/
def charAt (v : Variant) (units : List Nat) (index : Int) : List Nat :=
  let byteIndex := findByteIndex v units index
  if byteIndex < 0 then []
  else
    let characters := (units.drop byteIndex.toNat).take 8
    match matchFrom (safeMatchAt v characters) characters.length 0 with
    | none => characters.take 1
    | some (i, l) => (characters.drop i).take l

/-- `UtfString.charCodeAt(str, index)`: the codepoint at character index
`index`; `none` models `NaN` (negative surrogate byte index, or a read past
the end of the string). -/
def charCodeAt (v : Variant) (units : List Nat) (index : Int) : Option Nat :=
  let byteIndex := findSurrogateByteIndex v units index
  if byteIndex < 0 then none
  else
    match units[byteIndex.toNat]? with
    | none => none
    | some code =>
        if isHighSurrogate code then
          match units[byteIndex.toNat + 1]? with
          | none => none
          | some low =>
              some ((code - 0xD800) * 0x400 + (low + (0x10000 - 0xDC00)))
        else some code

/-- `UtfString.codePointAt` delegates to `charCodeAt`. -/
def codePointAt (v : Variant) (units : List Nat) (index : Int) : Option Nat :=
  charCodeAt v units index

/-- `UtfString.stringFromCharCode(charCode)`: encode one codepoint as code
units, splitting values above `0xFFFF` into a surrogate pair. -/
def stringFromCharCode (charCode : Nat) : List Nat :=
  if 0xFFFF < charCode then
    [0xD800 + ((charCode - 0x10000) >>> 10),
      0xDC00 + ((charCode - 0x10000) &&& 0x3FF)]
  else [charCode]

/-- `UtfString.codePointsToString(arr)`: concatenate the encodings of the
codepoints. -/
def codePointsToString (arr : List Nat) : List Nat :=
  (arr.map stringFromCharCode).flatten

/-- The loop of `stringToCodePoints`: `charCodeAt` at increasing indices,
stopping at the first falsy codepoint (`NaN`, modelled `none`, or `0`).
The fuel is the remaining iteration count `str.length - i` of the `for`
loop. -/
def stringToCodePointsA (v : Variant) (units : List Nat) :
    Nat → Nat → List Nat
  | 0, _ => []
  | fuel + 1, i =>
      if i < units.length then
        match charCodeAt v units (i : Int) with
        | none => []
        | some 0 => []
        | some cp => cp :: stringToCodePointsA v units fuel (i + 1)
      else []

/-- `UtfString.stringToCodePoints(str)`. -/
def stringToCodePoints (v : Variant) (units : List Nat) : List Nat :=
  stringToCodePointsA v units units.length 0

/-- The `while (chr > 0)` loop of `stringToBytes`, collecting the low bytes of
`chr`.  The value shrinks by `>>> 8` each step, so `chr` itself is more
than enough fuel. -/
def byteArrayA : Nat → Nat → List Nat
  | 0, _ => []
  | fuel + 1, chr =>
      if 0 < chr then (chr &&& 0xFF) :: byteArrayA fuel (chr >>> 8)
      else []

/-- `UtfString.stringToBytes(str)`: per code unit, the byte list produced by
the shift loop, padded to two bytes only when it has exactly one, then
reversed (big-endian). -/
def stringToBytes (units : List Nat) : List Nat :=
  (units.map (fun chr =>
    let byteArray := byteArrayA chr chr
    let byteArray := if byteArray.length = 1 then byteArray ++ [0] else byteArray
    byteArray.reverse)).flatten

/-- `UtfString.bytesToString(arr)`: combine byte pairs `(hi, low)` into code
units `(hi << 8) | low`; a trailing odd byte meets an `undefined` low byte,
whose bitwise-or contribution in JavaScript is `0`.  `String.fromCharCode`
reduces the value modulo `2^16` (`ToUint16`). -/
def bytesToString : List Nat → List Nat
  | [] => []
  | [hi] => [(hi <<< 8) % 0x10000]
  | hi :: low :: rest => (((hi <<< 8) ||| low) % 0x10000) :: bytesToString rest

/-- The search loop of the native `String.prototype.indexOf`: the least
position `i` in `[start, len]` where `needle` is a prefix of the rest of
the string.  Fuel `len + 1` covers every position. -/
def jsIndexOfA (units needle : List Nat) : Nat → Nat → Int
  | 0, _ => -1
  | fuel + 1, i =>
      if i ≤ units.length then
        if needle.isPrefixOf (units.drop i) then (i : Int)
        else jsIndexOfA units needle fuel (i + 1)
      else -1

/-- Native `str.indexOf(needle, start)` (with `start` already clamped to
`[0, len]` by `ToInteger`). -/
def jsIndexOf (units needle : List Nat) (start : Nat) : Int :=
  jsIndexOfA units needle (units.length + 1) (min start units.length)

/-- `UtfString.indexOf(str, searchValue, start)`: convert the start character
index to a byte index, search natively, convert the hit back to a
character index. -/
def indexOf (v : Variant) (units searchValue : List Nat) (start : Int) : Int :=
  let startByteIndex := findByteIndex v units start
  if startByteIndex < 0 then -1
  else
    let index := jsIndexOf units searchValue startByteIndex.toNat
    if index < 0 then -1 else findCharIndex v units index

/-- Native `String.prototype.slice` on code units: negative indices are
relative to the end, then both are clamped to `[0, len]`. -/
def jsStringSlice (units : List Nat) (a b : Int) : List Nat :=
  let len : Int := units.length
  let a' := if a < 0 then max (len + a) 0 else min a len
  let b' := if b < 0 then max (len + b) 0 else min b len
  (units.drop a'.toNat).take (b' - a').toNat

/-- `UtfString.slice(str, start, end)`: `none` models an omitted (or
non-numeric) argument. -/
def slice (v : Variant) (units : List Nat)
    (start finish : Option Int) : List Nat :=
  let start1 : Int :=
    match start with
    | none => 0
    | some s => if s < 0 then lengthOf v units + s else s
  let end1 : Int :=
    match finish with
    | none => (units.length : Int)
    | some e =>
        if lengthOf v units ≤ e then (units.length : Int)
        else if e < 0 then lengthOf v units + e else e
  let startByteIndex := findByteIndex v units start1
  let startByteIndex :=
    if startByteIndex < 0 then (units.length : Int) else startByteIndex
  let finishByteIndex := findByteIndex v units end1
  let finishByteIndex :=
    if finishByteIndex < 0 then (units.length : Int) else finishByteIndex
  jsStringSlice units startByteIndex finishByteIndex

/-- The do-while loop of `padEnd`: append one logical character of the pad
string per iteration, cycling its character index, until the logical length
reaches the target.  `none` models non-termination (exhausted fuel). -/
def padEndA (v : Variant) (padString : List Nat) (targetLength : Int) :
    Nat → List Nat → Int → Option (List Nat)
  | 0, _, _ => none
  | fuel + 1, newStr, iPadStr =>
      let newStr2 := newStr ++ charAt v padString iPadStr
      let iPad2 := iPadStr + 1
      let iPad3 := if lengthOf v padString ≤ iPad2 then 0 else iPad2
      if lengthOf v newStr2 < targetLength then
        padEndA v padString targetLength fuel newStr2 iPad3
      else some newStr2

/-- `UtfString.padEnd(str, targetLength, padString)`.  The loop appends at
least one code unit per iteration whenever the pad string is non-empty and
the logical length is at least a quarter of the code-unit length, so
`4 * targetLength + 1` iterations always suffice for termination. -/
def padEnd (v : Variant) (str : List Nat) (targetLength : Int)
    (padString : List Nat) : Option (List Nat) :=
  if targetLength ≤ lengthOf v str then some str
  else padEndA v padString targetLength (4 * targetLength.toNat + 1) str 0

/-- The do-while loop of `padStart`, accumulating `fullPadding`. -/
def padStartA (v : Variant) (padString str : List Nat) (targetLength : Int) :
    Nat → List Nat → Int → Option (List Nat)
  | 0, _, _ => none
  | fuel + 1, fullPadding, iPadStr =>
      let fp2 := fullPadding ++ charAt v padString iPadStr
      let iPad2 := iPadStr + 1
      let iPad3 := if lengthOf v padString ≤ iPad2 then 0 else iPad2
      if lengthOf v (fp2 ++ str) < targetLength then
        padStartA v padString str targetLength fuel fp2 iPad3
      else some (fp2 ++ str)

/-- `UtfString.padStart(str, targetLength, padString)`. -/
def padStart (v : Variant) (str : List Nat) (targetLength : Int)
    (padString : List Nat) : Option (List Nat) :=
  if targetLength ≤ lengthOf v str then some str
  else padStartA v padString str targetLength (4 * targetLength.toNat + 1) [] 0

/-- The greedy left-to-right tokenisation step, fuel-driven; each logical
character consumes at least one code unit, so the code-unit length is
sufficient fuel. -/
def logicalSpansA (v : Variant) : Nat → List Nat → List Nat
  | 0, _ => []
  | _ + 1, [] => []
  | fuel + 1, a :: rest =>
      spanAt v (a :: rest) 0
        :: logicalSpansA v fuel ((a :: rest).drop (spanAt v (a :: rest) 0))

/-- Specification-side view: the code-unit span lengths of the logical
characters of a text, in order (greedy left-to-right tokenisation by the
class's scanner). -/
def logicalSpans (v : Variant) (units : List Nat) : List Nat :=
  logicalSpansA v units.length units

/-- Pair each span length with its starting code-unit position. -/
def withStarts : Nat → List Nat → List (Nat × Nat)
  | _, [] => []
  | p, s :: rest => (p, s) :: withStarts (p + s) rest

/-- Starting code-unit position of the `k`-th logical character: the sum of
the preceding span lengths. -/
def prefixLen (spans : List Nat) (k : Nat) : Nat :=
  ((spans.take k).sum)

/-- Codepoint of a surrogate pair, as the source computes it:
`(hi - 0xD800) * 0x400 + (low - 0xDC00) + 0x10000`. -/
def combineSurrogates (hi lo : Nat) : Nat :=
  (hi - 0xD800) * 0x400 + (lo + (0x10000 - 0xDC00))

/-- Specification-side view: the codepoints of a text, by greedy surrogate
pairing. -/
def cpl : List Nat → List Nat
  | [] => []
  | [a] => [a]
  | a :: b :: rest =>
      if isHighSurrogate a && isLowSurrogate b then
        combineSurrogates a b :: cpl rest
      else a :: cpl (b :: rest)

/-- A text contains only valid paired surrogates: every high surrogate is
immediately followed by a low surrogate, and no low surrogate appears
elsewhere. -/
def wellPaired : List Nat → Bool
  | [] => true
  | [a] => !isSurrogate a
  | a :: b :: rest =>
      if isHighSurrogate a then isLowSurrogate b && wellPaired rest
      else !isSurrogate a && wellPaired (b :: rest)


/-! ### Basic facts about spans and the tokenisation -/

theorem spanAt_pos (v : Variant) (units : List Nat) (i : Nat) :
    0 < spanAt v units i := by
  cases v <;> simp only [spanAt] <;> split <;> try split
  all_goals omega

theorem spanAt_le_four (v : Variant) (units : List Nat) (i : Nat) :
    spanAt v units i ≤ 4 := by
  cases v <;> simp only [spanAt] <;> split <;> try split
  all_goals omega

theorem isSurrogatePairAt_length {units : List Nat} {i : Nat}
    (h : isSurrogatePairAt units i = true) : i + 2 ≤ units.length := by
  unfold isSurrogatePairAt at h
  cases hd : units.drop i with
  | nil => rw [hd] at h; simp at h
  | cons a t =>
    cases t with
    | nil => rw [hd] at h; simp at h
    | cons b t2 =>
      have hl := congrArg List.length hd
      simp only [List.length_drop, List.length_cons] at hl
      omega

theorem isRegionalPairAt_length {units : List Nat} {i : Nat}
    (h : isRegionalPairAt units i = true) : i + 4 ≤ units.length := by
  unfold isRegionalPairAt at h
  cases hd : units.drop i with
  | nil => rw [hd] at h; simp at h
  | cons a t =>
    cases t with
    | nil => rw [hd] at h; simp at h
    | cons b t2 =>
      cases t2 with
      | nil => rw [hd] at h; simp at h
      | cons c t3 =>
        cases t3 with
        | nil => rw [hd] at h; simp at h
        | cons d t4 =>
          have hl := congrArg List.length hd
          simp only [List.length_drop, List.length_cons] at hl
          omega

theorem spanAt_le_length {v : Variant} {units : List Nat} {i : Nat}
    (h : i < units.length) : i + spanAt v units i ≤ units.length := by
  cases v <;> simp only [spanAt]
  · split
    · next hp => exact isSurrogatePairAt_length hp
    · omega
  · split
    · next hp => exact isRegionalPairAt_length hp
    · split
      · next hp => exact isSurrogatePairAt_length hp
      · omega

theorem isSurrogatePairAt_drop (units : List Nat) (p : Nat) :
    isSurrogatePairAt (units.drop p) 0 = isSurrogatePairAt units p := by
  unfold isSurrogatePairAt
  rw [List.drop_zero]

theorem isRegionalPairAt_drop (units : List Nat) (p : Nat) :
    isRegionalPairAt (units.drop p) 0 = isRegionalPairAt units p := by
  unfold isRegionalPairAt
  rw [List.drop_zero]

theorem spanAt_drop (v : Variant) (units : List Nat) (p : Nat) :
    spanAt v (units.drop p) 0 = spanAt v units p := by
  cases v <;> simp [spanAt, isSurrogatePairAt_drop, isRegionalPairAt_drop]

theorem logicalSpans_nil (v : Variant) : logicalSpans v [] = [] := rfl

theorem logicalSpansA_fuel (v : Variant) :
    ∀ (n fuel1 fuel2 : Nat) (units : List Nat), units.length ≤ n →
      units.length ≤ fuel1 → units.length ≤ fuel2 →
      logicalSpansA v fuel1 units = logicalSpansA v fuel2 units := by
  intro n
  induction n with
  | zero =>
    intro fuel1 fuel2 units h h1 h2
    have hu : units = [] := List.eq_nil_of_length_eq_zero (by omega)
    subst hu
    cases fuel1 <;> cases fuel2 <;> rfl
  | succ n ih =>
    intro fuel1 fuel2 units h h1 h2
    cases units with
    | nil => cases fuel1 <;> cases fuel2 <;> rfl
    | cons a rest =>
      cases fuel1 with
      | zero => simp at h1
      | succ fuel1 =>
        cases fuel2 with
        | zero => simp at h2
        | succ fuel2 =>
          show spanAt v (a :: rest) 0 :: _ = spanAt v (a :: rest) 0 :: _
          congr 1
          have hs1 : 0 < spanAt v (a :: rest) 0 := spanAt_pos v _ 0
          have hs2 : spanAt v (a :: rest) 0 ≤ (a :: rest).length := by
            have := @spanAt_le_length v (a :: rest) 0 (by simp)
            omega
          simp only [List.length_cons] at h h1 h2 hs2
          apply ih
          · simp only [List.length_drop, List.length_cons]
            omega
          · simp only [List.length_drop, List.length_cons]
            omega
          · simp only [List.length_drop, List.length_cons]
            omega

theorem logicalSpans_cons (v : Variant) (units : List Nat) (h : units ≠ []) :
    logicalSpans v units
      = spanAt v units 0 :: logicalSpans v (units.drop (spanAt v units 0)) := by
  cases units with
  | nil => exact absurd rfl h
  | cons a rest =>
    show spanAt v (a :: rest) 0
        :: logicalSpansA v rest.length
          ((a :: rest).drop (spanAt v (a :: rest) 0)) = _
    congr 1
    have hs1 : 0 < spanAt v (a :: rest) 0 := spanAt_pos v _ 0
    have hs2 : spanAt v (a :: rest) 0 ≤ (a :: rest).length := by
      have := @spanAt_le_length v (a :: rest) 0 (by simp)
      omega
    apply logicalSpansA_fuel v
      (((a :: rest).drop (spanAt v (a :: rest) 0)).length)
    · omega
    · simp only [List.length_drop, List.length_cons] at hs2 ⊢
      omega
    · omega

theorem logicalSpans_eq_nil_iff (v : Variant) (units : List Nat) :
    logicalSpans v units = [] ↔ units = [] := by
  constructor
  · intro h
    by_contra hu
    rw [logicalSpans_cons v units hu] at h
    simp at h
  · intro h
    subst h
    exact logicalSpans_nil v

theorem logicalSpans_sum_aux (v : Variant) :
    ∀ (n : Nat) (units : List Nat), units.length ≤ n →
      (logicalSpans v units).sum = units.length := by
  intro n
  induction n with
  | zero =>
    intro units h
    have : units = [] := List.eq_nil_of_length_eq_zero (by omega)
    subst this
    simp [logicalSpans_nil]
  | succ n ih =>
    intro units h
    by_cases hu : units = []
    · subst hu
      simp [logicalSpans_nil]
    · have hlen : 0 < units.length := List.length_pos.mpr hu
      rw [logicalSpans_cons v units hu]
      have hs := spanAt_pos v units 0
      have hsl : spanAt v units 0 ≤ units.length := by
        have := @spanAt_le_length v units 0 hlen
        omega
      rw [List.sum_cons, ih (units.drop (spanAt v units 0)) (by simp; omega)]
      simp
      omega

theorem logicalSpans_sum (v : Variant) (units : List Nat) :
    (logicalSpans v units).sum = units.length :=
  logicalSpans_sum_aux v units.length units (le_refl _)

theorem logicalSpans_mem_bounds_aux (v : Variant) :
    ∀ (n : Nat) (units : List Nat), units.length ≤ n →
      ∀ s ∈ logicalSpans v units, 1 ≤ s ∧ s ≤ 4 := by
  intro n
  induction n with
  | zero =>
    intro units h
    have : units = [] := List.eq_nil_of_length_eq_zero (by omega)
    subst this
    simp [logicalSpans_nil]
  | succ n ih =>
    intro units h
    by_cases hu : units = []
    · subst hu
      simp [logicalSpans_nil]
    · have hlen : 0 < units.length := List.length_pos.mpr hu
      rw [logicalSpans_cons v units hu]
      intro s hs
      rcases List.mem_cons.mp hs with h1 | h1
      · subst h1
        exact ⟨spanAt_pos v units 0, spanAt_le_four v units 0⟩
      · have hsp := spanAt_pos v units 0
        exact ih (units.drop (spanAt v units 0)) (by simp; omega) s h1

theorem logicalSpans_mem_bounds (v : Variant) (units : List Nat) :
    ∀ s ∈ logicalSpans v units, 1 ≤ s ∧ s ≤ 4 :=
  logicalSpans_mem_bounds_aux v units.length units (le_refl _)

theorem logicalSpans_default_mem_aux :
    ∀ (n : Nat) (units : List Nat), units.length ≤ n →
      ∀ s ∈ logicalSpans .default units, s = 1 ∨ s = 2 := by
  intro n
  induction n with
  | zero =>
    intro units h
    have : units = [] := List.eq_nil_of_length_eq_zero (by omega)
    subst this
    simp [logicalSpans_nil]
  | succ n ih =>
    intro units h
    by_cases hu : units = []
    · subst hu
      simp [logicalSpans_nil]
    · have hlen : 0 < units.length := List.length_pos.mpr hu
      rw [logicalSpans_cons _ units hu]
      intro s hs
      rcases List.mem_cons.mp hs with h1 | h1
      · subst h1
        simp only [spanAt]
        split <;> omega
      · have hsp := spanAt_pos Variant.default units 0
        exact ih (units.drop (spanAt Variant.default units 0))
          (by simp; omega) s h1

theorem logicalSpans_default_mem (units : List Nat) :
    ∀ s ∈ logicalSpans .default units, s = 1 ∨ s = 2 :=
  logicalSpans_default_mem_aux units.length units (le_refl _)

theorem length_le_sum {l : List Nat} (h : ∀ s ∈ l, 1 ≤ s) :
    l.length ≤ l.sum := by
  induction l with
  | nil => simp
  | cons a t ih =>
    simp only [List.length_cons, List.sum_cons]
    have ha := h a (by simp)
    have := ih (fun s hs => h s (by simp [hs]))
    omega

theorem logicalSpans_length_le (v : Variant) (units : List Nat) :
    (logicalSpans v units).length ≤ units.length := by
  rw [← logicalSpans_sum v units]
  exact length_le_sum (fun s hs => (logicalSpans_mem_bounds v units s hs).1)

theorem length_le_four_mul {l : List Nat} (h : ∀ s ∈ l, s ≤ 4) :
    l.sum ≤ 4 * l.length := by
  induction l with
  | nil => simp
  | cons a t ih =>
    simp only [List.length_cons, List.sum_cons]
    have ha := h a (by simp)
    have := ih (fun s hs => h s (by simp [hs]))
    omega

theorem units_length_le_four_spans (v : Variant) (units : List Nat) :
    units.length ≤ 4 * (logicalSpans v units).length := by
  rw [← logicalSpans_sum v units]
  exact length_le_four_mul (fun s hs => (logicalSpans_mem_bounds v units s hs).2)

/-! ### The match chains of the scanners -/

theorem matchFromA_none_all {matchAt : Nat → Option Nat} :
    ∀ (fuel p : Nat), matchFromA matchAt fuel p = none →
      ∀ q, p ≤ q → q < p + fuel → matchAt q = none := by
  intro fuel
  induction fuel with
  | zero => intro p h q hq1 hq2; omega
  | succ fuel ih =>
    intro p h q hq1 hq2
    unfold matchFromA at h
    cases hm : matchAt p with
    | some l => rw [hm] at h; simp at h
    | none =>
      rw [hm] at h
      by_cases hq : q = p
      · subst hq; exact hm
      · exact ih (p + 1) h q (by omega) (by omega)

theorem matchFrom_ge {matchAt : Nat → Option Nat} {len p : Nat} (h : len ≤ p) :
    matchFrom matchAt len p = none := by
  unfold matchFrom
  have h0 : len - p = 0 := by omega
  rw [h0]
  rfl

theorem matchFrom_lt {matchAt : Nat → Option Nat} {len p l : Nat} (h : p < len)
    (hm : matchAt p = some l) :
    matchFrom matchAt len p = some (p, l) := by
  unfold matchFrom
  have h0 : len - p = (len - p - 1) + 1 := by omega
  rw [h0]
  unfold matchFromA
  rw [hm]

theorem matchFromA_succ (matchAt : Nat → Option Nat) (fuel p : Nat) :
    matchFromA matchAt (fuel + 1) p
      = match matchAt p with
        | some l => some (p, l)
        | none => matchFromA matchAt fuel (p + 1) := rfl

theorem matchFrom_shift {matchAt : Nat → Option Nat} {len p : Nat}
    (hm : matchAt p = none) :
    matchFrom matchAt len p = matchFrom matchAt len (p + 1) := by
  by_cases h : p < len
  · unfold matchFrom
    have h2 : len - p = (len - (p + 1)) + 1 := by omega
    rw [h2, matchFromA_succ, hm]
  · rw [matchFrom_ge (by omega), matchFrom_ge (by omega)]

theorem matchListA_succ (matchAt : Nat → Option Nat) (len fuel p : Nat) :
    matchListA matchAt len (fuel + 1) p
      = match matchFrom matchAt len p with
        | none => []
        | some (i, l) =>
            (i, l) :: matchListA matchAt len fuel (i + Nat.max l 1) := rfl

theorem safeMatchAt_lt {v : Variant} {units : List Nat} {p : Nat}
    (h : p < units.length) :
    safeMatchAt v units p = some (spanAt v units p) := by
  simp [safeMatchAt, h]

theorem drop_ne_nil_of_lt {units : List Nat} {p : Nat} (h : p < units.length) :
    units.drop p ≠ [] := by
  intro hcon
  have := congrArg List.length hcon
  simp only [List.length_drop, List.length_nil] at this
  omega

theorem matchListA_safe (v : Variant) (units : List Nat) :
    ∀ (m p fuel : Nat), units.length - p ≤ m → units.length - p < fuel →
      matchListA (safeMatchAt v units) units.length fuel p
        = withStarts p (logicalSpans v (units.drop p)) := by
  intro m
  induction m with
  | zero =>
    intro p fuel h hf
    have hp : units.length ≤ p := by omega
    have hd : units.drop p = [] := List.drop_eq_nil_of_le hp
    cases fuel with
    | zero => omega
    | succ fuel =>
      unfold matchListA
      rw [matchFrom_ge hp, hd, logicalSpans_nil]
      rfl
  | succ m ih =>
    intro p fuel h hf
    by_cases hp : units.length ≤ p
    · have hd : units.drop p = [] := List.drop_eq_nil_of_le hp
      cases fuel with
      | zero => omega
      | succ fuel =>
        unfold matchListA
        rw [matchFrom_ge hp, hd, logicalSpans_nil]
        rfl
    · push_neg at hp
      cases fuel with
      | zero => omega
      | succ fuel =>
        have hs1 : 0 < spanAt v units p := spanAt_pos v units p
        have hs4 : p + spanAt v units p ≤ units.length := spanAt_le_length hp
        rw [matchListA_succ, matchFrom_lt hp (safeMatchAt_lt hp)]
        simp only
        have hmax : Nat.max (spanAt v units p) 1 = spanAt v units p :=
          Nat.max_eq_left hs1
        rw [hmax]
        rw [ih (p + spanAt v units p) fuel (by omega) (by omega)]
        rw [logicalSpans_cons v (units.drop p) (drop_ne_nil_of_lt hp),
          spanAt_drop, List.drop_drop]
        rfl

theorem matchList_safe (v : Variant) (units : List Nat) :
    matchList (safeMatchAt v units) units.length 0
      = withStarts 0 (logicalSpans v units) := by
  have h := matchListA_safe v units units.length 0 (units.length + 1)
    (by omega) (by omega)
  simpa [matchList] using h

theorem spanAt_default_pair {units : List Nat} {p : Nat}
    (h : isSurrogatePairAt units p = true) :
    spanAt .default units p = 2 := by
  simp [spanAt, h]

theorem spanAt_default_single {units : List Nat} {p : Nat}
    (h : isSurrogatePairAt units p = false) :
    spanAt .default units p = 1 := by
  simp [spanAt, h]

theorem matchListA_pair (units : List Nat) :
    ∀ (m p fuel : Nat), units.length - p ≤ m → units.length - p < fuel →
      matchListA (surrogatePairMatchAt units) units.length fuel p
        = (withStarts p (logicalSpans .default (units.drop p))).filter
            (fun x => x.2 == 2) := by
  intro m
  induction m with
  | zero =>
    intro p fuel h hf
    have hp : units.length ≤ p := by omega
    have hd : units.drop p = [] := List.drop_eq_nil_of_le hp
    cases fuel with
    | zero => omega
    | succ fuel =>
      unfold matchListA
      rw [matchFrom_ge hp, hd, logicalSpans_nil]
      rfl
  | succ m ih =>
    intro p fuel h hf
    by_cases hp : units.length ≤ p
    · have hd : units.drop p = [] := List.drop_eq_nil_of_le hp
      cases fuel with
      | zero => omega
      | succ fuel =>
        unfold matchListA
        rw [matchFrom_ge hp, hd, logicalSpans_nil]
        rfl
    · push_neg at hp
      cases fuel with
      | zero => omega
      | succ fuel =>
        by_cases hpair : isSurrogatePairAt units p = true
        · have h2 : p + 2 ≤ units.length := isSurrogatePairAt_length hpair
          have hm2 : surrogatePairMatchAt units p = some 2 := by
            simp [surrogatePairMatchAt, hpair]
          rw [matchListA_succ, matchFrom_lt hp hm2]
          simp only
          have hmax : Nat.max 2 1 = 2 := by decide
          rw [hmax]
          rw [ih (p + 2) fuel (by omega) (by omega)]
          rw [logicalSpans_cons _ (units.drop p) (drop_ne_nil_of_lt hp),
            spanAt_drop, spanAt_default_pair hpair, List.drop_drop]
          simp [withStarts, List.filter_cons]
        · have hpairf : isSurrogatePairAt units p = false := by
            simpa using hpair
          have e1 : matchListA (surrogatePairMatchAt units) units.length
              (fuel + 1) p
              = matchListA (surrogatePairMatchAt units) units.length
                (fuel + 1) (p + 1) := by
            rw [matchListA_succ, matchListA_succ,
              matchFrom_shift (by simp [surrogatePairMatchAt, hpairf])]
          rw [e1, ih (p + 1) (fuel + 1) (by omega) (by omega)]
          rw [logicalSpans_cons _ (units.drop p) (drop_ne_nil_of_lt hp),
            spanAt_drop, spanAt_default_single hpairf, List.drop_drop]
          simp [withStarts, List.filter_cons]

theorem matchList_pair (units : List Nat) :
    matchList (surrogatePairMatchAt units) units.length 0
      = (withStarts 0 (logicalSpans .default units)).filter
          (fun x => x.2 == 2) := by
  have h := matchListA_pair units units.length 0 (units.length + 1)
    (by omega) (by omega)
  simpa [matchList] using h

theorem spanAt_eq_one_of_unsafe_none {v : Variant} {units : List Nat} {q : Nat}
    (h : unsafeMatchAt v units q = none) : spanAt v units q = 1 := by
  cases v <;>
    simp only [unsafeMatchAt, surrogatePairMatchAt, spanAt] at h ⊢
  · split at h
    · simp at h
    · simp_all
  · split at h
    · simp at h
    · split at h
      · simp at h
      · simp_all

theorem spans_all_one_of_not_unsafe_aux (v : Variant) (units : List Nat)
    (h : ∀ q, q < units.length → spanAt v units q = 1) :
    ∀ (n p : Nat), units.length - p ≤ n →
      ∀ s ∈ logicalSpans v (units.drop p), s = 1 := by
  intro n
  induction n with
  | zero =>
    intro p hn
    have hp : units.length ≤ p := by omega
    rw [List.drop_eq_nil_of_le hp, logicalSpans_nil]
    simp
  | succ n ih =>
    intro p hn
    by_cases hp : units.length ≤ p
    · rw [List.drop_eq_nil_of_le hp, logicalSpans_nil]
      simp
    · push_neg at hp
      rw [logicalSpans_cons v (units.drop p) (drop_ne_nil_of_lt hp),
        spanAt_drop, h p hp]
      intro s hs
      rcases List.mem_cons.mp hs with h1 | h1
      · exact h1
      · rw [List.drop_drop] at h1
        exact ih (p + 1) (by omega) s h1

theorem spans_all_one_of_not_unsafe {v : Variant} {units : List Nat}
    (h : containsUnsafeUtfChars v units = false) :
    ∀ s ∈ logicalSpans v units, s = 1 := by
  have hnone : matchFrom (unsafeMatchAt v units) units.length 0 = none := by
    unfold containsUnsafeUtfChars at h
    cases hm : matchFrom (unsafeMatchAt v units) units.length 0 with
    | none => rfl
    | some x => rw [hm] at h; simp at h
  have hall : ∀ q, q < units.length → spanAt v units q = 1 := by
    intro q hq
    apply spanAt_eq_one_of_unsafe_none
    exact matchFromA_none_all units.length 0 hnone q (by omega) (by omega)
  have h2 := spans_all_one_of_not_unsafe_aux v units hall units.length 0
    (by omega)
  simpa using h2
/-! ### The scan loop -/

theorem scanInner_stop {charIndex nextIdx matchLen b c : Int}
    (h : charIndex ≤ c) :
    scanInner charIndex nextIdx matchLen b c = (b, c) := by
  unfold scanInner
  have h0 : (charIndex - c).toNat = 0 := by omega
  rw [h0]
  rfl

theorem scanInnerA_succ (charIndex nextIdx matchLen : Int) (fuel : Nat)
    (b c : Int) :
    scanInnerA charIndex nextIdx matchLen (fuel + 1) b c
      = if c < charIndex then
          if b = nextIdx then (b + matchLen, c + 1)
          else scanInnerA charIndex nextIdx matchLen fuel (b + 1) (c + 1)
        else (b, c) := rfl

theorem scanInner_walk {charIndex nextIdx matchLen : Int} :
    ∀ (fuel : Nat) (b c : Int), fuel = (charIndex - c).toNat →
      c ≤ charIndex → charIndex - c ≤ nextIdx - b →
      scanInnerA charIndex nextIdx matchLen fuel b c
        = (b + (charIndex - c), charIndex) := by
  intro fuel
  induction fuel with
  | zero =>
    intro b c hf h1 h2
    have hc : charIndex = c := by omega
    subst hc
    simp [scanInnerA]
  | succ fuel ih =>
    intro b c hf h1 h2
    have hlt : c < charIndex := by omega
    have hne : b ≠ nextIdx := by omega
    rw [scanInnerA_succ, if_pos hlt, if_neg hne,
      ih (b + 1) (c + 1) (by omega) (by omega) (by omega)]
    have : b + 1 + (charIndex - (c + 1)) = b + (charIndex - c) := by omega
    rw [this]

theorem scanInner_walk_eq {charIndex nextIdx matchLen b c : Int}
    (h1 : c ≤ charIndex) (h2 : charIndex - c ≤ nextIdx - b) :
    scanInner charIndex nextIdx matchLen b c
      = (b + (charIndex - c), charIndex) :=
  scanInner_walk _ b c rfl h1 h2

theorem scanInner_consume {charIndex nextIdx matchLen : Int} :
    ∀ (fuel : Nat) (b c : Int), fuel = (charIndex - c).toNat →
      b ≤ nextIdx → nextIdx - b < charIndex - c →
      scanInnerA charIndex nextIdx matchLen fuel b c
        = (nextIdx + matchLen, c + (nextIdx - b) + 1) := by
  intro fuel
  induction fuel with
  | zero =>
    intro b c hf h1 h2
    omega
  | succ fuel ih =>
    intro b c hf h1 h2
    have hlt : c < charIndex := by omega
    rw [scanInnerA_succ, if_pos hlt]
    by_cases hb : b = nextIdx
    · rw [if_pos hb]
      subst hb
      have : c + (b - b) + 1 = c + 1 := by omega
      rw [this]
    · rw [if_neg hb,
        ih (b + 1) (c + 1) (by omega) (by omega) (by omega)]
      have : c + 1 + (nextIdx - (b + 1)) + 1 = c + (nextIdx - b) + 1 := by
        omega
      rw [this]

theorem scanInner_consume_eq {charIndex nextIdx matchLen b c : Int}
    (h1 : b ≤ nextIdx) (h2 : nextIdx - b < charIndex - c) :
    scanInner charIndex nextIdx matchLen b c
      = (nextIdx + matchLen, c + (nextIdx - b) + 1) :=
  scanInner_consume _ b c rfl h1 h2

theorem scanInner_step {charIndex nextIdx matchLen b c : Int}
    (h1 : c < charIndex) (h2 : b ≠ nextIdx) :
    scanInner charIndex nextIdx matchLen b c
      = scanInner charIndex nextIdx matchLen (b + 1) (c + 1) := by
  unfold scanInner
  have hf : (charIndex - c).toNat = (charIndex - (c + 1)).toNat + 1 := by
    omega
  rw [hf, scanInnerA_succ, if_pos h1, if_neg h2]

theorem scanLoop_stop {len : Nat} {charIndex : Int} {M : List (Nat × Nat)}
    {b c : Int} (h : charIndex = c) :
    scanLoop len charIndex M b c = b := by
  cases M with
  | nil =>
    unfold scanLoop
    rw [scanInner_stop (le_of_eq h)]
    simp [h]
  | cons head rest =>
    cases head with
    | mk i l =>
      unfold scanLoop
      rw [scanInner_stop (le_of_eq h)]
      simp [h]

theorem scanLoop_shift {len : Nat} {charIndex : Int} {M : List (Nat × Nat)}
    {b c : Int} (h1 : c < charIndex)
    (h2 : b ≠ (match M with
      | [] => (len : Int)
      | (i, _) :: _ => (i : Int))) :
    scanLoop len charIndex M b c = scanLoop len charIndex M (b + 1) (c + 1) := by
  cases M with
  | nil =>
    unfold scanLoop
    rw [scanInner_step h1 h2]
  | cons head rest =>
    cases head with
    | mk i l =>
      unfold scanLoop
      rw [scanInner_step h1 h2]

theorem withStarts_mem_pos :
    ∀ (spans : List Nat) (p : Nat) (x : Nat × Nat),
      x ∈ withStarts p spans → p ≤ x.1 := by
  intro spans
  induction spans with
  | nil => intro p x hx; simp [withStarts] at hx
  | cons s rest ih =>
    intro p x hx
    rcases List.mem_cons.mp hx with h | h
    · subst h; simp
    · have := ih (p + s) x h
      omega

theorem prefixLen_zero (spans : List Nat) : prefixLen spans 0 = 0 := rfl

theorem prefixLen_succ_cons (s : Nat) (rest : List Nat) (k : Nat) :
    prefixLen (s :: rest) (k + 1) = s + prefixLen rest k := by
  simp [prefixLen]

theorem prefixLen_all_one {spans : List Nat} (h : ∀ s ∈ spans, s = 1) :
    ∀ {k : Nat}, k ≤ spans.length → prefixLen spans k = k := by
  induction spans with
  | nil =>
    intro k hk
    have hk0 : k = 0 := by simpa using hk
    subst hk0
    rfl
  | cons s rest ih =>
    intro k hk
    cases k with
    | zero => rfl
    | succ k =>
      rw [prefixLen_succ_cons, h s (by simp),
        ih (fun x hx => h x (List.mem_cons_of_mem s hx)) (by simpa using hk)]
      omega

theorem scanLoop_spans (len : Nat) (charIndex : Int) :
    ∀ (spans : List Nat) (p : Nat) (c : Int),
      (∀ s ∈ spans, 1 ≤ s) → p + spans.sum = len →
      c ≤ charIndex → charIndex ≤ c + spans.length →
      scanLoop len charIndex (withStarts p spans) p c
        = ((p + prefixLen spans (charIndex - c).toNat : Nat) : Int) := by
  intro spans
  induction spans with
  | nil =>
    intro p c hall hsum hc1 hc2
    have hcc : charIndex = c := by
      simp only [List.length_nil] at hc2
      omega
    rw [scanLoop_stop hcc]
    have h0 : (charIndex - c).toNat = 0 := by omega
    rw [h0, prefixLen_zero]
    simp
  | cons s rest ih =>
    intro p c hall hsum hc1 hc2
    have hs1 : 1 ≤ s := hall s (by simp)
    have hsum2 : p + s + rest.sum = len := by
      simp only [List.sum_cons] at hsum
      omega
    have hlen2 : charIndex ≤ c + 1 + rest.length := by
      simp only [List.length_cons] at hc2
      push_cast at hc2 ⊢
      omega
    by_cases hcc : charIndex = c
    · rw [scanLoop_stop hcc]
      have h0 : (charIndex - c).toNat = 0 := by omega
      rw [h0, prefixLen_zero]
      simp
    · have hlt : c < charIndex := by omega
      show scanLoop len charIndex ((p, s) :: withStarts (p + s) rest) p c = _
      unfold scanLoop
      rw [scanInner_consume_eq (by omega) (by omega)]
      simp only
      have hsub : (p : Int) - p = 0 := by omega
      rw [hsub]
      by_cases hcc2 : charIndex = c + 0 + 1
      · rw [if_pos (by omega)]
        have h1t : (charIndex - c).toNat = 1 := by omega
        rw [h1t, prefixLen_succ_cons, prefixLen_zero]
        push_cast
        omega
      · rw [if_neg (by omega)]
        have hrsum : 1 ≤ rest.sum := by
          have hrne : rest ≠ [] := by
            intro hcon
            subst hcon
            simp only [List.length_cons, List.length_nil] at hc2
            omega
          have hlelen := length_le_sum
            (fun x hx => hall x (List.mem_cons_of_mem s hx))
          have hlen : 1 ≤ rest.length := by
            cases rest with
            | nil => exact absurd rfl hrne
            | cons a t => simp
          omega
        rw [if_neg (by push_cast; omega)]
        have hrec := ih (p + s) (c + 0 + 1)
          (fun x hx => hall x (List.mem_cons_of_mem s hx)) (by omega)
          (by omega) (by push_cast; omega)
        have hk : (charIndex - c).toNat
            = (charIndex - (c + 0 + 1)).toNat + 1 := by
          omega
        rw [hk, prefixLen_succ_cons]
        push_cast at hrec ⊢
        rw [hrec]
        omega

theorem scanLoop_pairs (len : Nat) (charIndex : Int) :
    ∀ (spans : List Nat) (p : Nat) (c : Int),
      (∀ s ∈ spans, s = 1 ∨ s = 2) → p + spans.sum = len →
      c ≤ charIndex → charIndex ≤ c + spans.length →
      scanLoop len charIndex
          ((withStarts p spans).filter (fun x => x.2 == 2)) p c
        = ((p + prefixLen spans (charIndex - c).toNat : Nat) : Int) := by
  intro spans
  induction spans with
  | nil =>
    intro p c hall hsum hc1 hc2
    have hcc : charIndex = c := by
      simp only [List.length_nil] at hc2
      omega
    rw [scanLoop_stop hcc]
    have h0 : (charIndex - c).toNat = 0 := by omega
    rw [h0, prefixLen_zero]
    simp
  | cons s rest ih =>
    intro p c hall hsum hc1 hc2
    have hsum2 : p + s + rest.sum = len := by
      simp only [List.sum_cons] at hsum
      omega
    by_cases hcc : charIndex = c
    · rw [scanLoop_stop hcc]
      have h0 : (charIndex - c).toNat = 0 := by omega
      rw [h0, prefixLen_zero]
      simp
    · have hlt : c < charIndex := by omega
      rcases hall s (by simp) with hs1 | hs2
      · -- single span: its entry is filtered away; shift one step
        subst hs1
        have hfil :
            (withStarts p (1 :: rest)).filter (fun x => x.2 == 2)
              = (withStarts (p + 1) rest).filter (fun x => x.2 == 2) := by
          show ((p, 1) :: withStarts (p + 1) rest).filter _ = _
          rw [List.filter_cons]
          simp
        rw [hfil]
        have hne : (p : Int) ≠
            (match (withStarts (p + 1) rest).filter (fun x => x.2 == 2) with
              | [] => (len : Int)
              | (i, _) :: _ => (i : Int)) := by
          cases hM : (withStarts (p + 1) rest).filter (fun x => x.2 == 2) with
          | nil =>
            simp only
            push_cast
            omega
          | cons y ys =>
            cases y with
            | mk i l =>
              simp only
              have hmem : (i, l) ∈ (withStarts (p + 1) rest).filter
                  (fun x => x.2 == 2) := by
                rw [hM]; simp
              have := withStarts_mem_pos rest (p + 1) (i, l)
                (List.mem_of_mem_filter hmem)
              simp at this
              omega
        rw [scanLoop_shift hlt hne]
        have hrec := ih (p + 1) (c + 1)
          (fun x hx => hall x (List.mem_cons_of_mem 1 hx)) (by omega)
          (by omega) (by simp only [List.length_cons] at hc2; push_cast; omega)
        have hk : (charIndex - c).toNat
            = (charIndex - (c + 1)).toNat + 1 := by omega
        rw [hk, prefixLen_succ_cons]
        push_cast at hrec ⊢
        rw [hrec]
        omega
      · -- pair span: consume its match
        subst hs2
        show scanLoop len charIndex
            (((p, 2) :: withStarts (p + 2) rest).filter
              (fun x => x.2 == 2)) p c = _
        rw [List.filter_cons]
        simp only [beq_self_eq_true, if_pos]
        unfold scanLoop
        rw [scanInner_consume_eq (by omega) (by omega)]
        simp only
        have hsub : (p : Int) - p = 0 := by omega
        rw [hsub]
        by_cases hcc2 : charIndex = c + 0 + 1
        · rw [if_pos (by omega)]
          have h1t : (charIndex - c).toNat = 1 := by omega
          rw [h1t, prefixLen_succ_cons, prefixLen_zero]
          push_cast
          omega
        · rw [if_neg (by omega)]
          have hrsum : 1 ≤ rest.sum := by
            have hrne : rest ≠ [] := by
              intro hcon
              subst hcon
              simp only [List.length_cons, List.length_nil] at hc2
              omega
            have hlelen := length_le_sum (fun x hx => by
              rcases hall x (List.mem_cons_of_mem 2 hx) with h | h <;> omega)
            have hlen : 1 ≤ rest.length := by
              cases rest with
              | nil => exact absurd rfl hrne
              | cons a t => simp
            omega
          rw [if_neg (by push_cast; omega)]
          have hrec := ih (p + 2) (c + 0 + 1)
            (fun x hx => hall x (List.mem_cons_of_mem 2 hx)) (by omega)
            (by omega)
            (by simp only [List.length_cons] at hc2; push_cast; omega)
          have hk : (charIndex - c).toNat
              = (charIndex - (c + 0 + 1)).toNat + 1 := by omega
          rw [hk, prefixLen_succ_cons]
          push_cast at hrec ⊢
          rw [hrec]
          omega
theorem scanLoop_nil_consume {len : Nat} {charIndex b c : Int}
    (h1 : b ≤ (len : Int)) (h2 : (len : Int) - b < charIndex - c) :
    scanLoop len charIndex [] b c
      = if c + ((len : Int) - b) + 1 = charIndex then (len : Int) + 1
        else -1 := by
  unfold scanLoop
  rw [scanInner_consume_eq h1 h2]

theorem scanLoop_cons_consume {len : Nat} {charIndex : Int} {i l : Nat}
    {rest : List (Nat × Nat)} {b c : Int}
    (h1 : b ≤ (i : Int)) (h2 : (i : Int) - b < charIndex - c) :
    scanLoop len charIndex ((i, l) :: rest) b c
      = if c + ((i : Int) - b) + 1 = charIndex then (i : Int) + l
        else if (len : Int) ≤ (i : Int) + l then -1
        else scanLoop len charIndex rest ((i : Int) + l)
          (c + ((i : Int) - b) + 1) := by
  conv_lhs => rw [scanLoop]
  rw [scanInner_consume_eq h1 h2]

theorem scanLoop_pairs_over (len : Nat) (charIndex : Int) :
    ∀ (spans : List Nat) (p : Nat) (c : Int),
      (∀ s ∈ spans, s = 1 ∨ s = 2) → p + spans.sum = len →
      c + spans.length < charIndex →
      scanLoop len charIndex
          ((withStarts p spans).filter (fun x => x.2 == 2)) p c = -1 ∨
        scanLoop len charIndex
          ((withStarts p spans).filter (fun x => x.2 == 2)) p c
          = (len : Int) + 1 := by
  intro spans
  induction spans with
  | nil =>
    intro p c hall hsum hc
    simp only [List.length_nil, Nat.cast_zero, add_zero] at hc
    have hp : p = len := by simpa using hsum
    rw [show (withStarts p ([] : List Nat)).filter (fun x => x.2 == 2) = []
      from rfl]
    rw [scanLoop_nil_consume (by omega) (by omega)]
    by_cases hcc : c + ((len : Int) - p) + 1 = charIndex
    · rw [if_pos hcc]
      right
      rfl
    · rw [if_neg hcc]
      left
      rfl
  | cons s rest ih =>
    intro p c hall hsum hc
    simp only [List.length_cons] at hc
    have hsum2 : p + s + rest.sum = len := by
      simp only [List.sum_cons] at hsum
      omega
    have hclt : c < charIndex := by push_cast at hc; omega
    rcases hall s (by simp) with hs1 | hs2
    · subst hs1
      have hfil :
          (withStarts p (1 :: rest)).filter (fun x => x.2 == 2)
            = (withStarts (p + 1) rest).filter (fun x => x.2 == 2) := by
        show ((p, 1) :: withStarts (p + 1) rest).filter _ = _
        rw [List.filter_cons]
        simp
      rw [hfil]
      have hne : (p : Int) ≠
          (match (withStarts (p + 1) rest).filter (fun x => x.2 == 2) with
            | [] => (len : Int)
            | (i, _) :: _ => (i : Int)) := by
        cases hM : (withStarts (p + 1) rest).filter (fun x => x.2 == 2) with
        | nil =>
          simp only
          push_cast
          omega
        | cons y ys =>
          cases y with
          | mk i l =>
            simp only
            have hmem : (i, l) ∈ (withStarts (p + 1) rest).filter
                (fun x => x.2 == 2) := by
              rw [hM]; simp
            have := withStarts_mem_pos rest (p + 1) (i, l)
              (List.mem_of_mem_filter hmem)
            simp at this
            omega
      rw [scanLoop_shift hclt hne]
      have hrec := ih (p + 1) (c + 1)
        (fun x hx => hall x (List.mem_cons_of_mem 1 hx)) (by omega)
        (by push_cast at hc ⊢; omega)
      push_cast at hrec ⊢
      exact hrec
    · subst hs2
      have hfil :
          (withStarts p (2 :: rest)).filter (fun x => x.2 == 2)
            = (p, 2) :: (withStarts (p + 2) rest).filter (fun x => x.2 == 2)
            := by
        show ((p, 2) :: withStarts (p + 2) rest).filter _ = _
        rw [List.filter_cons]
        simp
      rw [hfil, scanLoop_cons_consume (by omega) (by omega)]
      rw [if_neg (by push_cast at hc ⊢; omega)]
      by_cases hrest : rest = []
      · subst hrest
        simp only [List.sum_nil] at hsum2
        rw [if_pos (by push_cast; omega)]
        left
        rfl
      · have hrsum : 1 ≤ rest.sum := by
          have hlelen := length_le_sum (fun x hx => by
            rcases hall x (List.mem_cons_of_mem 2 hx) with h | h <;> omega)
          have hlen : 1 ≤ rest.length := by
            cases rest with
            | nil => exact absurd rfl hrest
            | cons a t => simp
          omega
        rw [if_neg (by push_cast; omega)]
        have hrec := ih (p + 2) (c + ((p : Int) - p) + 1)
          (fun x hx => hall x (List.mem_cons_of_mem 2 hx)) (by omega)
          (by push_cast at hc ⊢; omega)
        push_cast at hrec ⊢
        exact hrec

theorem scanLoop_neg (len : Nat) (charIndex : Int) (hneg : charIndex < 0) :
    ∀ (M : List (Nat × Nat)) (b c : Int), 0 ≤ c →
      scanLoop len charIndex M b c = -1 := by
  intro M
  induction M with
  | nil =>
    intro b c hc
    unfold scanLoop
    rw [scanInner_stop (by omega)]
    simp only
    rw [if_neg (by omega)]
  | cons head rest ih =>
    cases head with
    | mk i l =>
      intro b c hc
      unfold scanLoop
      rw [scanInner_stop (by omega)]
      simp only
      rw [if_neg (by omega)]
      by_cases hb : (len : Int) ≤ b
      · rw [if_pos hb]
      · rw [if_neg hb]
        exact ih b c hc

theorem spans_all_one_length {spans : List Nat} (h : ∀ s ∈ spans, s = 1) :
    spans.length = spans.sum := by
  induction spans with
  | nil => rfl
  | cons s rest ih =>
    simp only [List.length_cons, List.sum_cons, h s (by simp),
      ih (fun x hx => h x (List.mem_cons_of_mem s hx))]
    omega

theorem scan_safe (v : Variant) (units : List Nat) (charIndex : Int)
    (h1 : 0 ≤ charIndex)
    (h2 : charIndex ≤ ((logicalSpans v units).length : Int)) :
    scan v units (safeMatchAt v units) charIndex
      = ((prefixLen (logicalSpans v units) charIndex.toNat : Nat) : Int) := by
  unfold scan
  cases hu : containsUnsafeUtfChars v units with
  | false =>
    simp only [Bool.not_false, if_true]
    have hall := spans_all_one_of_not_unsafe hu
    rw [prefixLen_all_one hall (by omega)]
    omega
  | true =>
    simp only [Bool.not_true, Bool.false_eq_true, if_false]
    rw [matchList_safe]
    have hr := scanLoop_spans units.length charIndex (logicalSpans v units) 0 0
      (fun s hs => (logicalSpans_mem_bounds v units s hs).1)
      (by simpa using logicalSpans_sum v units)
      (by omega) (by simpa using h2)
    simpa using hr

theorem scan_pair_le (units : List Nat) (charIndex : Int)
    (h1 : 0 ≤ charIndex)
    (h2 : charIndex ≤ ((logicalSpans .default units).length : Int)) :
    scan .default units (surrogatePairMatchAt units) charIndex
      = ((prefixLen (logicalSpans .default units) charIndex.toNat : Nat) : Int)
    := by
  unfold scan
  cases hu : containsUnsafeUtfChars .default units with
  | false =>
    simp only [Bool.not_false, if_true]
    have hall := spans_all_one_of_not_unsafe hu
    rw [prefixLen_all_one hall (by omega)]
    omega
  | true =>
    simp only [Bool.not_true, Bool.false_eq_true, if_false]
    rw [matchList_pair]
    have hr := scanLoop_pairs units.length charIndex
      (logicalSpans .default units) 0 0
      (logicalSpans_default_mem units)
      (by simpa using logicalSpans_sum .default units)
      (by omega) (by simpa using h2)
    simpa using hr

theorem scan_pair_over (units : List Nat) (charIndex : Int)
    (h2 : ((logicalSpans .default units).length : Int) < charIndex) :
    scan .default units (surrogatePairMatchAt units) charIndex = -1 ∨
      (units.length : Int)
        ≤ scan .default units (surrogatePairMatchAt units) charIndex := by
  unfold scan
  cases hu : containsUnsafeUtfChars .default units with
  | false =>
    simp only [Bool.not_false, if_true]
    right
    have hall := spans_all_one_of_not_unsafe hu
    have hlen : (logicalSpans .default units).length = units.length := by
      rw [spans_all_one_length hall, logicalSpans_sum]
    omega
  | true =>
    simp only [Bool.not_true, Bool.false_eq_true, if_false]
    rw [matchList_pair]
    have hr := scanLoop_pairs_over units.length charIndex
      (logicalSpans .default units) 0 0
      (logicalSpans_default_mem units)
      (by simpa using logicalSpans_sum .default units)
      (by push_cast; omega)
    rcases hr with h | h
    · left
      simpa using h
    · right
      have := h
      simp only [Nat.cast_zero] at this ⊢
      omega
/-! ### Characterising the index-mapping operations -/

theorem countChars_at :
    ∀ (spans : List Nat) (p k : Nat) (byteIndex : Int),
      k < spans.length → (∀ s ∈ spans, 1 ≤ s) →
      byteIndex = (p : Int) + (prefixLen spans k : Nat) →
      countChars (withStarts p spans) byteIndex = (k : Int) := by
  intro spans
  induction spans with
  | nil =>
    intro p k byteIndex hk
    simp at hk
  | cons s rest ih =>
    intro p k byteIndex hk hall hb
    have hs1 : 1 ≤ s := hall s (by simp)
    cases k with
    | zero =>
      rw [prefixLen_zero] at hb
      show countChars ((p, s) :: withStarts (p + s) rest) byteIndex = 0
      unfold countChars
      rw [if_pos (by push_cast; omega)]
    | succ k =>
      rw [prefixLen_succ_cons] at hb
      show countChars ((p, s) :: withStarts (p + s) rest) byteIndex = _
      unfold countChars
      rw [if_neg (by push_cast; omega)]
      rw [ih (p + s) k byteIndex (by simpa using hk)
        (fun x hx => hall x (List.mem_cons_of_mem s hx))
        (by push_cast; omega)]
      push_cast
      omega

theorem countChars_last :
    ∀ (spans : List Nat) (p : Nat) (byteIndex : Int),
      spans ≠ [] → (∀ s ∈ spans, 1 ≤ s) →
      byteIndex = (p : Int) + (spans.sum : Nat) - 1 →
      countChars (withStarts p spans) byteIndex
        = ((spans.length : Nat) : Int) - 1 := by
  intro spans
  induction spans with
  | nil => intro p byteIndex hne; exact absurd rfl hne
  | cons s rest ih =>
    intro p byteIndex hne hall hb
    have hs1 : 1 ≤ s := hall s (by simp)
    show countChars ((p, s) :: withStarts (p + s) rest) byteIndex = _
    by_cases hrest : rest = []
    · subst hrest
      simp only [List.sum_cons, List.sum_nil] at hb
      unfold countChars
      rw [if_pos (by push_cast; omega)]
      simp
    · have hrsum : 1 ≤ rest.sum := by
        have hlelen := length_le_sum
          (fun x hx => hall x (List.mem_cons_of_mem s hx))
        have hlen : 1 ≤ rest.length := by
          cases rest with
          | nil => exact absurd rfl hrest
          | cons a t => simp
        omega
      simp only [List.sum_cons] at hb
      unfold countChars
      rw [if_neg (by push_cast; omega)]
      rw [ih (p + s) byteIndex hrest
        (fun x hx => hall x (List.mem_cons_of_mem s hx))
        (by omega)]
      have hlen : 1 ≤ rest.length := by
        cases rest with
        | nil => exact absurd rfl hrest
        | cons a t => simp
      simp only [List.length_cons]
      push_cast
      omega

theorem containsUnsafeUtfChars_nil (v : Variant) :
    containsUnsafeUtfChars v [] = false := rfl

theorem prefixLen_le_sum (spans : List Nat) (k : Nat) :
    prefixLen spans k ≤ spans.sum := by
  have h := List.sum_take_add_sum_drop spans k
  unfold prefixLen
  omega

theorem prefixLen_lt_sum {spans : List Nat} {k : Nat}
    (hall : ∀ s ∈ spans, 1 ≤ s) (hk : k < spans.length) :
    prefixLen spans k < spans.sum := by
  have h := List.sum_take_add_sum_drop spans k
  have hd : (spans.length - k) ≤ (spans.drop k).sum := by
    have := length_le_sum (fun x hx => hall x (List.drop_subset k spans hx))
    simpa using this
  unfold prefixLen
  omega

theorem lengthOf_eq (v : Variant) (units : List Nat) :
    lengthOf v units = (((logicalSpans v units).length : Nat) : Int) := by
  unfold lengthOf findCharIndex
  by_cases hu : units = []
  · subst hu
    rw [containsUnsafeUtfChars_nil]
    simp [logicalSpans_nil]
  · have hlen : 0 < units.length := List.length_pos.mpr hu
    rw [if_neg (by push_cast; omega)]
    cases hc : containsUnsafeUtfChars v units with
    | false =>
      simp only [Bool.not_false, if_true]
      have hall := spans_all_one_of_not_unsafe hc
      have h1 : (logicalSpans v units).length = (logicalSpans v units).sum :=
        spans_all_one_length hall
      rw [h1, logicalSpans_sum]
      push_cast
      omega
    | true =>
      simp only [Bool.not_true, Bool.false_eq_true, if_false]
      rw [matchList_safe]
      have hspne : logicalSpans v units ≠ [] := by
        rw [Ne, logicalSpans_eq_nil_iff]
        exact hu
      rw [countChars_last (logicalSpans v units) 0 _ hspne
        (fun s hs => (logicalSpans_mem_bounds v units s hs).1)
        (by rw [logicalSpans_sum]; push_cast; omega)]
      omega

theorem lengthOf_nonneg (v : Variant) (units : List Nat) :
    0 ≤ lengthOf v units := by
  rw [lengthOf_eq]
  positivity

theorem lengthOf_le_length (v : Variant) (units : List Nat) :
    lengthOf v units ≤ (units.length : Int) := by
  rw [lengthOf_eq]
  have := logicalSpans_length_le v units
  omega

theorem length_le_four_mul_lengthOf (v : Variant) (units : List Nat) :
    (units.length : Int) ≤ 4 * lengthOf v units := by
  rw [lengthOf_eq]
  have := units_length_le_four_spans v units
  omega

theorem findCharIndex_at (v : Variant) (units : List Nat) (k : Nat)
    (hk : k < (logicalSpans v units).length) :
    findCharIndex v units ((prefixLen (logicalSpans v units) k : Nat) : Int)
      = (k : Int) := by
  unfold findCharIndex
  have hall : ∀ s ∈ logicalSpans v units, 1 ≤ s :=
    fun s hs => (logicalSpans_mem_bounds v units s hs).1
  have hlt : prefixLen (logicalSpans v units) k < units.length := by
    have := prefixLen_lt_sum hall hk
    rw [logicalSpans_sum] at this
    exact this
  rw [if_neg (by push_cast; omega)]
  cases hc : containsUnsafeUtfChars v units with
  | false =>
    simp only [Bool.not_false, if_true]
    have hone := spans_all_one_of_not_unsafe hc
    rw [prefixLen_all_one hone (by omega)]
  | true =>
    simp only [Bool.not_true, Bool.false_eq_true, if_false]
    rw [matchList_safe]
    exact countChars_at (logicalSpans v units) 0 k _ hk hall (by push_cast; omega)

theorem findByteIndex_at (v : Variant) (units : List Nat) (charIndex : Int)
    (h1 : 0 ≤ charIndex) (h2 : charIndex < lengthOf v units) :
    findByteIndex v units charIndex
      = ((prefixLen (logicalSpans v units) charIndex.toNat : Nat) : Int) := by
  unfold findByteIndex
  rw [if_neg (by omega)]
  rw [lengthOf_eq] at h2
  exact scan_safe v units charIndex h1 (by omega)

theorem findByteIndex_out (v : Variant) (units : List Nat) (charIndex : Int)
    (h : lengthOf v units ≤ charIndex) :
    findByteIndex v units charIndex = -1 := by
  unfold findByteIndex
  rw [if_pos h]
theorem scan_neg (v : Variant) (units : List Nat)
    (matchAt : Nat → Option Nat) (charIndex : Int) (h : charIndex < 0) :
    scan v units matchAt charIndex < 0 := by
  unfold scan
  cases hu : containsUnsafeUtfChars v units with
  | false =>
    simpa using h
  | true =>
    simp only [Bool.not_true, Bool.false_eq_true, if_false]
    rw [scanLoop_neg units.length charIndex h _ 0 0 (by omega)]
    omega

/-- C1: for every text `T` and every integer `i` with
`0 ≤ i < logicalLength(T)`, converting the character index to a code-unit
index and back is the identity:
`findCharIndex(T, findByteIndex(T, i)) = i`, in both the default and the
visual variant (the statement is parametric in the variant `v`). -/
theorem c1_charIndex_roundtrip (v : Variant) (units : List Nat) (i : Int)
    (h1 : 0 ≤ i) (h2 : i < lengthOf v units) :
    findCharIndex v units (findByteIndex v units i) = i := by
  rw [findByteIndex_at v units i h1 h2]
  have hk : i.toNat < (logicalSpans v units).length := by
    rw [lengthOf_eq] at h2
    omega
  rw [findCharIndex_at v units i.toNat hk]
  omega

theorem c1_charIndex_roundtrip_witness :
    findCharIndex .default [0x61, 0xD83D, 0xDE42, 0x62]
        (findByteIndex .default [0x61, 0xD83D, 0xDE42, 0x62] 2) = 2 ∧
      findCharIndex .visual [0xD83C, 0xDDE9, 0xD83C, 0xDDEA, 0x78]
        (findByteIndex .visual [0xD83C, 0xDDE9, 0xD83C, 0xDDEA, 0x78] 1)
        = 1 :=
  ⟨c1_charIndex_roundtrip .default [0x61, 0xD83D, 0xDE42, 0x62] 2
      (by decide) (by decide),
    c1_charIndex_roundtrip .visual [0xD83C, 0xDDE9, 0xD83C, 0xDDEA, 0x78] 1
      (by decide) (by decide)⟩

/-- C2: `findByteIndex(T, i)` returns `-1` if `i ≥ logicalLength(T)`;
otherwise (for `0 ≤ i`) it returns the starting code-unit offset of the
`i`-th logical character, namely the sum of the code-unit span lengths of
the preceding logical characters; and when `T` contains no multi-unit
spans the in-range result is `i` itself. -/
theorem c2_findByteIndex_spec (v : Variant) (units : List Nat) (i : Int) :
    (lengthOf v units ≤ i → findByteIndex v units i = -1) ∧
      (0 ≤ i → i < lengthOf v units →
        findByteIndex v units i
            = ((((logicalSpans v units).take i.toNat).sum : Nat) : Int) ∧
          ((∀ s ∈ logicalSpans v units, s = 1) →
            findByteIndex v units i = i)) := by
  refine ⟨fun h => findByteIndex_out v units i h, fun h1 h2 => ⟨?_, ?_⟩⟩
  · exact findByteIndex_at v units i h1 h2
  · intro hall
    rw [findByteIndex_at v units i h1 h2,
      prefixLen_all_one hall (by rw [lengthOf_eq] at h2; omega)]
    omega

theorem c2_findByteIndex_spec_witness :
    findByteIndex .default [0x61, 0xD83D, 0xDE42, 0x62] 2 = 3 ∧
      findByteIndex .default [0x61, 0xD83D, 0xDE42, 0x62] 5 = -1 := by
  constructor
  · have h := (c2_findByteIndex_spec .default [0x61, 0xD83D, 0xDE42, 0x62]
      2).2 (by decide) (by decide)
    rw [h.1]
    decide
  · exact (c2_findByteIndex_spec .default [0x61, 0xD83D, 0xDE42, 0x62] 5).1
      (by decide)

/-- C5: for the text consisting of the flag `🇩🇪` (the two regional
indicator pairs `U+1F1E9`, `U+1F1EA`, four code units) followed by `x`,
the default variant's `lengthOf` returns 3 while the visual variant's
returns 2.  (In this development the two classes differ exactly in the
classifier functions `safeMatchAt`/`unsafeMatchAt` selected by the
`Variant` parameter; every other operation is shared.) -/
theorem c5_flag_lengths :
    lengthOf .default [0xD83C, 0xDDE9, 0xD83C, 0xDDEA, 0x78] = 3 ∧
      lengthOf .visual [0xD83C, 0xDDE9, 0xD83C, 0xDDEA, 0x78] = 2 := by
  decide

/-- C7: `indexOf` converts the start character index to a code-unit offset,
searches natively from there, and converts the hit's code-unit offset back
to a logical character index; in particular
`indexOf("a🙂b", "b") = 2` (the logical index), not 3 (the code-unit
index). -/
theorem c7_indexOf_logical :
    (∀ (v : Variant) (units searchValue : List Nat) (start : Int),
      indexOf v units searchValue start
        = (if findByteIndex v units start < 0 then -1
          else if jsIndexOf units searchValue
              (findByteIndex v units start).toNat < 0 then -1
          else findCharIndex v units
            (jsIndexOf units searchValue
              (findByteIndex v units start).toNat))) ∧
      indexOf .default [0x61, 0xD83D, 0xDE42, 0x62] [0x62] 0 = 2 ∧
      indexOf .default [0x61, 0xD83D, 0xDE42, 0x62] [0x62] 0 ≠ 3 := by
  refine ⟨fun v units searchValue start => rfl, by decide, by decide⟩

/-- C10: for every text `T` and every negative `start` with
`logicalLength(T) + start < 0`, `slice(T, start)` returns the empty text:
the computed negative character index makes `findByteIndex` report
out-of-range, and the byte index is then set to the full code-unit length
instead of being clamped to 0. -/
theorem c10_slice_negative_start (v : Variant) (units : List Nat)
    (start : Int) (h1 : start < 0) (h2 : lengthOf v units + start < 0) :
    slice v units (some start) none = [] := by
  have hL0 : 0 ≤ lengthOf v units := lengthOf_nonneg v units
  unfold slice
  simp only [if_pos h1]
  have hsb : findByteIndex v units (lengthOf v units + start) < 0 := by
    unfold findByteIndex
    rw [if_neg (by omega)]
    exact scan_neg v units _ _ (by omega)
  have hfb : findByteIndex v units ((units.length : Nat) : Int) = -1 :=
    findByteIndex_out v units _ (lengthOf_le_length v units)
  rw [if_pos hsb, hfb]
  rw [if_pos (show (-1 : Int) < 0 by omega)]
  unfold jsStringSlice
  simp

theorem c10_slice_negative_start_witness :
    slice .default [0x61] (some (-5)) none = [] :=
  c10_slice_negative_start .default [0x61] (-5) (by decide) (by decide)
/-! ### Tokens as sublists -/

theorem logicalSpans_drop_prefixLen (v : Variant) (units : List Nat) :
    ∀ k, k ≤ (logicalSpans v units).length →
      logicalSpans v (units.drop (prefixLen (logicalSpans v units) k))
        = (logicalSpans v units).drop k := by
  intro k
  induction k with
  | zero =>
    intro h
    simp [prefixLen_zero]
  | succ k ih =>
    intro h
    have hk : k < (logicalSpans v units).length := by omega
    have hih := ih (by omega)
    have hne : (logicalSpans v units).drop k ≠ [] := by
      intro hcon
      rw [List.drop_eq_nil_iff] at hcon
      omega
    have hdne : units.drop (prefixLen (logicalSpans v units) k) ≠ [] := by
      intro hcon
      rw [hcon, logicalSpans_nil] at hih
      exact hne hih.symm
    rw [logicalSpans_cons v _ hdne] at hih
    rw [List.drop_eq_getElem_cons hk] at hih
    have hih1 := (List.cons.injEq _ _ _ _).mp hih
    have hpl : prefixLen (logicalSpans v units) (k + 1)
        = prefixLen (logicalSpans v units) k
          + (logicalSpans v units)[k] := by
      unfold prefixLen
      rw [List.sum_take_succ _ k hk]
    rw [hpl, ← hih1.1]
    have h2 := hih1.2
    rw [List.drop_drop] at h2
    exact h2

theorem spans_getElem_eq_spanAt (v : Variant) (units : List Nat) (k : Nat)
    (hk : k < (logicalSpans v units).length) :
    (logicalSpans v units)[k]
      = spanAt v units (prefixLen (logicalSpans v units) k) := by
  have hih := logicalSpans_drop_prefixLen v units k (by omega)
  have hne : (logicalSpans v units).drop k ≠ [] := by
    intro hcon
    rw [List.drop_eq_nil_iff] at hcon
    omega
  have hdne : units.drop (prefixLen (logicalSpans v units) k) ≠ [] := by
    intro hcon
    rw [hcon, logicalSpans_nil] at hih
    exact hne hih.symm
  rw [logicalSpans_cons v _ hdne] at hih
  rw [List.drop_eq_getElem_cons hk] at hih
  have hih1 := (List.cons.injEq _ _ _ _).mp hih
  rw [← hih1.1, spanAt_drop]

theorem exists_token_cover :
    ∀ (spans : List Nat) (j : Nat), (∀ s ∈ spans, 1 ≤ s) → j < spans.sum →
      ∃ k, ∃ (hk : k < spans.length),
        prefixLen spans k ≤ j ∧ j < prefixLen spans k + spans[k] := by
  intro spans
  induction spans with
  | nil =>
    intro j hall hj
    simp at hj
  | cons s rest ih =>
    intro j hall hj
    by_cases hjs : j < s
    · exact ⟨0, by simp, by simp [prefixLen_zero], by
        simpa [prefixLen_zero] using hjs⟩
    · push_neg at hjs
      have hj2 : j - s < rest.sum := by
        simp only [List.sum_cons] at hj
        omega
      obtain ⟨k, hk, h1, h2⟩ := ih (j - s)
        (fun x hx => hall x (List.mem_cons_of_mem s hx)) hj2
      have hk1 : k + 1 < (s :: rest).length := by simpa using hk
      refine ⟨k + 1, hk1, ?_, ?_⟩
      · rw [prefixLen_succ_cons]
        omega
      · rw [prefixLen_succ_cons]
        have hg : (s :: rest)[k + 1] = rest[k] := by
          simp
        rw [hg]
        omega

theorem isSurrogatePairAt_spec {units : List Nat} {p : Nat}
    (h : isSurrogatePairAt units p = true) :
    ∃ hi lo, units[p]? = some hi ∧ units[p + 1]? = some lo ∧
      isHighSurrogate hi = true ∧ isLowSurrogate lo = true := by
  unfold isSurrogatePairAt at h
  cases hd : units.drop p with
  | nil => rw [hd] at h; simp at h
  | cons x t =>
    cases t with
    | nil => rw [hd] at h; simp at h
    | cons y t2 =>
      rw [hd] at h
      simp only [Bool.and_eq_true] at h
      refine ⟨x, y, ?_, ?_, h.1, h.2⟩
      · have hx := List.getElem?_drop units p 0
        rw [hd] at hx
        simpa using hx.symm
      · have hy := List.getElem?_drop units p 1
        rw [hd] at hy
        simpa using hy.symm

theorem isRegionalPairAt_spec {units : List Nat} {p : Nat}
    (h : isRegionalPairAt units p = true) :
    ∃ a b c d, units[p]? = some a ∧ units[p + 1]? = some b ∧
      units[p + 2]? = some c ∧ units[p + 3]? = some d ∧
      a = 0xD83C ∧ 0xDDE6 ≤ b ∧ b ≤ 0xDDFF ∧
      c = 0xD83C ∧ 0xDDE6 ≤ d ∧ d ≤ 0xDDFF := by
  unfold isRegionalPairAt at h
  cases hd : units.drop p with
  | nil => rw [hd] at h; simp at h
  | cons a t1 =>
    cases t1 with
    | nil => rw [hd] at h; simp at h
    | cons b t2 =>
      cases t2 with
      | nil => rw [hd] at h; simp at h
      | cons c t3 =>
        cases t3 with
        | nil => rw [hd] at h; simp at h
        | cons d t4 =>
          rw [hd] at h
          simp only [Bool.and_eq_true, decide_eq_true_eq] at h
          have ha := List.getElem?_drop units p 0
          have hb := List.getElem?_drop units p 1
          have hc := List.getElem?_drop units p 2
          have hdd := List.getElem?_drop units p 3
          rw [hd] at ha hb hc hdd
          exact ⟨a, b, c, d, by simpa using ha.symm, by simpa using hb.symm,
            by simpa using hc.symm, by simpa using hdd.symm,
            h.1.1.1, h.1.1.2.1, h.1.1.2.2, h.1.2, h.2.1, h.2.2⟩

theorem spanAt_cases (v : Variant) (units : List Nat) (p : Nat) :
    spanAt v units p = 1 ∨
      (spanAt v units p = 2 ∧ isSurrogatePairAt units p = true) ∨
      (spanAt v units p = 4 ∧ isRegionalPairAt units p = true) := by
  cases v <;> simp only [spanAt]
  · split
    · next hp => exact Or.inr (Or.inl ⟨rfl, hp⟩)
    · exact Or.inl rfl
  · split
    · next hp => exact Or.inr (Or.inr ⟨rfl, hp⟩)
    · split
      · next hp => exact Or.inr (Or.inl ⟨rfl, hp⟩)
      · exact Or.inl rfl

theorem spanAt_take_eight (v : Variant) (l : List Nat) :
    spanAt v (l.take 8) 0 = spanAt v l 0 := by
  cases v <;>
    cases l with
    | nil => rfl
    | cons a t1 =>
      cases t1 with
      | nil => rfl
      | cons b t2 =>
        cases t2 with
        | nil => rfl
        | cons c t3 =>
          cases t3 with
          | nil => rfl
          | cons d t4 => rfl

theorem charAt_eq (v : Variant) (units : List Nat) (index : Int) :
    charAt v units index
      = if findByteIndex v units index < 0 then []
        else
          match matchFrom
              (safeMatchAt v
                ((units.drop (findByteIndex v units index).toNat).take 8))
              ((units.drop (findByteIndex v units index).toNat).take 8).length
              0 with
          | none =>
              ((units.drop (findByteIndex v units index).toNat).take 8).take 1
          | some (i, l) =>
              (((units.drop
                (findByteIndex v units index).toNat).take 8).drop i).take l
      := rfl

theorem charAt_at (v : Variant) (units : List Nat) (k : Nat)
    (hk : k < (logicalSpans v units).length) :
    charAt v units (k : Int)
      = (units.drop (prefixLen (logicalSpans v units) k)).take
          (spanAt v units (prefixLen (logicalSpans v units) k)) := by
  have hall : ∀ s ∈ logicalSpans v units, 1 ≤ s :=
    fun s hs => (logicalSpans_mem_bounds v units s hs).1
  have hlt : prefixLen (logicalSpans v units) k < units.length := by
    have := prefixLen_lt_sum hall hk
    rw [logicalSpans_sum] at this
    exact this
  have hb := findByteIndex_at v units (k : Int) (by omega)
    (by rw [lengthOf_eq]; omega)
  rw [Int.toNat_natCast] at hb
  rw [charAt_eq, hb]
  rw [if_neg (by omega)]
  have htn : (((prefixLen (logicalSpans v units) k : Nat) : Int)).toNat
      = prefixLen (logicalSpans v units) k := Int.toNat_natCast _
  rw [htn]
  have h0 :
      (0 : Nat)
        < ((units.drop (prefixLen (logicalSpans v units) k)).take 8).length
      := by
    simp only [List.length_take, List.length_drop]
    omega
  rw [matchFrom_lt h0 (safeMatchAt_lt h0)]
  show ((((units.drop (prefixLen (logicalSpans v units) k)).take 8).drop
      0).take
        (spanAt v ((units.drop (prefixLen (logicalSpans v units) k)).take 8)
          0)) = _
  rw [List.drop_zero, spanAt_take_eight, spanAt_drop, List.take_take]
  have hmin : spanAt v units (prefixLen (logicalSpans v units) k) ⊓ 8
      = spanAt v units (prefixLen (logicalSpans v units) k) :=
    inf_eq_left.mpr (by
      have := spanAt_le_four v units (prefixLen (logicalSpans v units) k)
      omega)
  rw [hmin]

theorem charAt_ne_nil (v : Variant) (units : List Nat) (i : Int)
    (h1 : 0 ≤ i) (h2 : i < lengthOf v units) :
    charAt v units i ≠ [] := by
  have hi : i = ((i.toNat : Nat) : Int) := by omega
  rw [hi, charAt_at v units i.toNat (by rw [lengthOf_eq] at h2; omega)]
  have hall : ∀ s ∈ logicalSpans v units, 1 ≤ s :=
    fun s hs => (logicalSpans_mem_bounds v units s hs).1
  have hk : i.toNat < (logicalSpans v units).length := by
    rw [lengthOf_eq] at h2
    omega
  have hlt : prefixLen (logicalSpans v units) i.toNat < units.length := by
    have := prefixLen_lt_sum hall hk
    rw [logicalSpans_sum] at this
    exact this
  have hs := spanAt_pos v units (prefixLen (logicalSpans v units) i.toNat)
  intro hcon
  have := congrArg List.length hcon
  simp only [List.length_take, List.length_drop, List.length_nil] at this
  omega
/-- C8: an unpaired (lone) surrogate code unit is treated as one
single-code-unit logical character rather than an error: its position is a
logical character boundary whose character index lies below the logical
length (so `lengthOf` counts it as one logical character), and `charAt` at
that character index returns exactly that one code unit.  (The embedding is
total, mirroring the source, which raises no exception on such input.) -/
theorem c8_lone_surrogate (v : Variant) (units : List Nat) (j : Nat)
    (c : Nat) (hc : units[j]? = some c) (hs : isSurrogate c = true)
    (hhi : isHighSurrogate c = true →
      ∀ d, units[j + 1]? = some d → isLowSurrogate d = false)
    (hlo : isLowSurrogate c = true → 0 < j →
      ∀ d, units[j - 1]? = some d → isHighSurrogate d = false) :
    0 ≤ findCharIndex v units (j : Int) ∧
      findCharIndex v units (j : Int) < lengthOf v units ∧
      charAt v units (findCharIndex v units (j : Int)) = [c] := by
  have hj : j < units.length := by
    by_contra hcon
    push_neg at hcon
    rw [List.getElem?_eq_none hcon] at hc
    simp at hc
  have hall : ∀ s ∈ logicalSpans v units, 1 ≤ s :=
    fun s hs2 => (logicalSpans_mem_bounds v units s hs2).1
  obtain ⟨k, hk, hle, hltk⟩ := exists_token_cover (logicalSpans v units) j
    hall (by rw [logicalSpans_sum]; exact hj)
  have hsk := spans_getElem_eq_spanAt v units k hk
  rw [hsk] at hltk
  have hone : spanAt v units (prefixLen (logicalSpans v units) k) = 1 ∧
      j = prefixLen (logicalSpans v units) k := by
    rcases spanAt_cases v units (prefixLen (logicalSpans v units) k) with
      h1 | ⟨h2, hpair⟩ | ⟨h4, hri⟩
    · rw [h1] at hltk
      exact ⟨h1, by omega⟩
    · exfalso
      obtain ⟨hi, lo, hA, hB, hih, hil⟩ := isSurrogatePairAt_spec hpair
      rw [h2] at hltk
      rcases (by omega :
          j = prefixLen (logicalSpans v units) k ∨
            j = prefixLen (logicalSpans v units) k + 1) with hj1 | hj1
      · have hchi : c = hi := by
          rw [← hj1] at hA
          rw [hc] at hA
          exact Option.some.inj hA
        have hfalse := hhi (by rw [hchi]; exact hih) lo (by rw [hj1]; exact hB)
        rw [hfalse] at hil
        simp at hil
      · have hclo : c = lo := by
          rw [← hj1] at hB
          rw [hc] at hB
          exact Option.some.inj hB
        have hfalse := hlo (by rw [hclo]; exact hil) (by omega) hi
          (by rw [show j - 1 = prefixLen (logicalSpans v units) k by omega]
              exact hA)
        rw [hfalse] at hih
        simp at hih
    · exfalso
      obtain ⟨a, b, c2, d, hA, hB, hC, hD, ha83, hb1, hb2, hc83, hd1, hd2⟩ :=
        isRegionalPairAt_spec hri
      rw [h4] at hltk
      have hbLow : isLowSurrogate b = true := by
        simp only [isLowSurrogate, decide_eq_true_eq]
        omega
      have hdLow : isLowSurrogate d = true := by
        simp only [isLowSurrogate, decide_eq_true_eq]
        omega
      have haHigh : isHighSurrogate a = true := by
        rw [ha83]
        decide
      have hc2High : isHighSurrogate c2 = true := by
        rw [hc83]
        decide
      rcases (by omega :
          j = prefixLen (logicalSpans v units) k ∨
            j = prefixLen (logicalSpans v units) k + 1 ∨
            j = prefixLen (logicalSpans v units) k + 2 ∨
            j = prefixLen (logicalSpans v units) k + 3) with
        hj1 | hj1 | hj1 | hj1
      · have hca : c = a := by
          rw [← hj1] at hA
          rw [hc] at hA
          exact Option.some.inj hA
        have hfalse := hhi (by rw [hca]; exact haHigh) b
          (by rw [hj1]; exact hB)
        rw [hfalse] at hbLow
        simp at hbLow
      · have hcb : c = b := by
          rw [← hj1] at hB
          rw [hc] at hB
          exact Option.some.inj hB
        have hfalse := hlo (by rw [hcb]; exact hbLow) (by omega) a
          (by rw [show j - 1 = prefixLen (logicalSpans v units) k by omega]
              exact hA)
        rw [hfalse] at haHigh
        simp at haHigh
      · have hcc : c = c2 := by
          rw [← hj1] at hC
          rw [hc] at hC
          exact Option.some.inj hC
        have hfalse := hhi (by rw [hcc]; exact hc2High) d
          (by rw [show j + 1 = prefixLen (logicalSpans v units) k + 3
                by omega]
              exact hD)
        rw [hfalse] at hdLow
        simp at hdLow
      · have hcd : c = d := by
          rw [← hj1] at hD
          rw [hc] at hD
          exact Option.some.inj hD
        have hfalse := hlo (by rw [hcd]; exact hdLow) (by omega) c2
          (by rw [show j - 1 = prefixLen (logicalSpans v units) k + 2
                by omega]
              exact hC)
        rw [hfalse] at hc2High
        simp at hc2High
  obtain ⟨hs1, hjpk⟩ := hone
  have hfc : findCharIndex v units (j : Int) = (k : Int) := by
    rw [hjpk]
    exact findCharIndex_at v units k hk
  refine ⟨by rw [hfc]; omega, by rw [hfc, lengthOf_eq]; omega, ?_⟩
  rw [hfc, charAt_at v units k hk, hs1, ← hjpk]
  rw [List.drop_eq_getElem_cons hj]
  have hgc : units[j] = c := by
    rw [List.getElem?_eq_getElem hj] at hc
    exact Option.some.inj hc
  rw [hgc]
  rfl

theorem c8_lone_surrogate_witness :
    0 ≤ findCharIndex .default [0xD800, 0x78] ((0 : Nat) : Int) ∧
      findCharIndex .default [0xD800, 0x78] ((0 : Nat) : Int)
        < lengthOf .default [0xD800, 0x78] ∧
      charAt .default [0xD800, 0x78]
        (findCharIndex .default [0xD800, 0x78] ((0 : Nat) : Int))
        = [0xD800] :=
  c8_lone_surrogate .default [0xD800, 0x78] 0 0xD800 (by decide) (by decide)
    (fun _ d hd => by
      have hd2 : d = 0x78 := by simpa using hd.symm
      subst hd2
      decide)
    (fun h => absurd h (by decide))
/-! ### `charCodeAt` -/

theorem charCodeAt_eq (v : Variant) (units : List Nat) (index : Int) :
    charCodeAt v units index
      = if findSurrogateByteIndex v units index < 0 then none
        else
          match units[(findSurrogateByteIndex v units index).toNat]? with
          | none => none
          | some code =>
              if isHighSurrogate code then
                match units[(findSurrogateByteIndex v units index).toNat
                    + 1]? with
                | none => none
                | some low =>
                    some ((code - 0xD800) * 0x400
                      + (low + (0x10000 - 0xDC00)))
              else some code := rfl

theorem findSurrogateByteIndex_eq (v : Variant) (units : List Nat)
    (charIndex : Int) :
    findSurrogateByteIndex v units charIndex
      = scan v units (surrogatePairMatchAt units) charIndex := rfl

theorem prefixLen_length (spans : List Nat) :
    prefixLen spans spans.length = spans.sum := by
  unfold prefixLen
  rw [List.take_length]

theorem charCodeAt_none_of_le (units : List Nat) (i : Int)
    (h : lengthOf .default units ≤ i) :
    charCodeAt .default units i = none := by
  rw [lengthOf_eq] at h
  rw [charCodeAt_eq, findSurrogateByteIndex_eq]
  by_cases hlt : i ≤ ((logicalSpans .default units).length : Int)
  · have hi : i = ((logicalSpans .default units).length : Int) :=
      le_antisymm hlt h
    rw [scan_pair_le units i (by omega) hlt]
    rw [if_neg (by omega)]
    have hpl : prefixLen (logicalSpans .default units) i.toNat
        = units.length := by
      rw [hi, Int.toNat_natCast, prefixLen_length, logicalSpans_sum]
    rw [Int.toNat_natCast, hpl]
    rw [List.getElem?_eq_none (le_refl _)]
  · push_neg at hlt
    rcases scan_pair_over units i hlt with hover | hover
    · rw [hover]
      rw [if_pos (by omega)]
    · rw [if_neg (by omega)]
      rw [List.getElem?_eq_none (by omega)]

/-- C9: for every index `i ≥ logicalLength(T)`, `UtfString.charCodeAt(T, i)`
returns `NaN` (modelled by `none`, a value distinct from every number and in
particular from the `-1` sentinel; no exception is possible in this total
model), and `codePointAt` returns the same value since it delegates to
`charCodeAt`. -/
theorem c9_charCodeAt_nan (units : List Nat) (i : Int)
    (h : lengthOf .default units ≤ i) :
    charCodeAt .default units i = none ∧
      codePointAt .default units i = charCodeAt .default units i :=
  ⟨charCodeAt_none_of_le units i h, rfl⟩

theorem c9_charCodeAt_nan_witness :
    charCodeAt .default [0x61, 0xD83D, 0xDE42] 2 = none ∧
      codePointAt .default [0x61, 0xD83D, 0xDE42] 2
        = charCodeAt .default [0x61, 0xD83D, 0xDE42] 2 :=
  c9_charCodeAt_nan [0x61, 0xD83D, 0xDE42] 2 (by decide)
/-! ### Reading codepoints at logical indices -/

theorem getElem?_of_drop_eq {units : List Nat} {p : Nat} {l : List Nat}
    (hd : units.drop p = l) (n : Nat) : units[p + n]? = l[n]? := by
  rw [← hd, List.getElem?_drop]

theorem charCodeAt_lt (units : List Nat) (k : Nat)
    (hk : k < (logicalSpans .default units).length) :
    charCodeAt .default units (k : Int)
      = match units.drop (prefixLen (logicalSpans .default units) k) with
        | [] => none
        | a :: rest =>
            if isHighSurrogate a then
              match rest with
              | [] => none
              | b :: _ =>
                  some ((a - 0xD800) * 0x400 + (b + (0x10000 - 0xDC00)))
            else some a := by
  have hall : ∀ s ∈ logicalSpans .default units, 1 ≤ s :=
    fun s hs => (logicalSpans_mem_bounds _ units s hs).1
  have hlt : prefixLen (logicalSpans .default units) k < units.length := by
    have := prefixLen_lt_sum hall hk
    rw [logicalSpans_sum] at this
    exact this
  rw [charCodeAt_eq, findSurrogateByteIndex_eq,
    scan_pair_le units (k : Int) (by omega) (by omega)]
  simp only [Int.toNat_natCast]
  rw [if_neg (by omega)]
  cases hd : units.drop (prefixLen (logicalSpans .default units) k) with
  | nil => exact absurd hd (drop_ne_nil_of_lt hlt)
  | cons a tail =>
    have hA : units[prefixLen (logicalSpans .default units) k]? = some a := by
      have := getElem?_of_drop_eq hd 0
      simpa using this
    simp only [hA]
    by_cases hh : isHighSurrogate a = true
    · rw [hh]
      simp only [if_true]
      have hB := getElem?_of_drop_eq hd 1
      cases tail with
      | nil =>
        simp at hB
        rw [List.getElem?_eq_none hB]
      | cons b rest2 =>
        simp at hB
        rw [hB]
    · have hh2 : isHighSurrogate a = false := by simpa using hh
      rw [hh2]
      simp

theorem stringToCodePointsA_succ (v : Variant) (units : List Nat)
    (fuel i : Nat) :
    stringToCodePointsA v units (fuel + 1) i
      = if i < units.length then
          match charCodeAt v units (i : Int) with
          | none => []
          | some 0 => []
          | some cp => cp :: stringToCodePointsA v units fuel (i + 1)
        else [] := rfl

theorem cpl_cons_pair {a b : Nat} (rest : List Nat)
    (ha : isHighSurrogate a = true) (hb : isLowSurrogate b = true) :
    cpl (a :: b :: rest) = combineSurrogates a b :: cpl rest := by
  simp [cpl, ha, hb]

theorem cpl_cons_single {a : Nat} (tail : List Nat)
    (ha : isHighSurrogate a = false) :
    cpl (a :: tail) = a :: cpl tail := by
  cases tail with
  | nil => rfl
  | cons b r => simp [cpl, ha]

theorem wellPaired_cons_high {a b : Nat} {rest : List Nat}
    (ha : isHighSurrogate a = true)
    (hw : wellPaired (a :: b :: rest) = true) :
    isLowSurrogate b = true ∧ wellPaired rest = true := by
  simpa [wellPaired, ha] using hw

theorem wellPaired_cons_nothigh {a : Nat} {tail : List Nat}
    (ha : isHighSurrogate a = false)
    (hw : wellPaired (a :: tail) = true) :
    isSurrogate a = false ∧ wellPaired tail = true := by
  cases tail with
  | nil =>
    simp only [wellPaired, Bool.not_eq_true'] at hw
    exact ⟨hw, rfl⟩
  | cons b r =>
    simpa [wellPaired, ha] using hw

theorem isSurrogatePairAt_of {units : List Nat} {p a b : Nat}
    {rest : List Nat} (hd : units.drop p = a :: b :: rest)
    (ha : isHighSurrogate a = true) (hb : isLowSurrogate b = true) :
    isSurrogatePairAt units p = true := by
  unfold isSurrogatePairAt
  rw [hd]
  simp [ha, hb]

theorem isSurrogatePairAt_not_of {units : List Nat} {p a : Nat}
    {tail : List Nat} (hd : units.drop p = a :: tail)
    (ha : isHighSurrogate a = false) :
    isSurrogatePairAt units p = false := by
  unfold isSurrogatePairAt
  rw [hd]
  cases tail <;> simp [ha]

theorem prefixLen_succ_eq (v : Variant) (units : List Nat) (k : Nat)
    (hk : k < (logicalSpans v units).length) :
    prefixLen (logicalSpans v units) (k + 1)
      = prefixLen (logicalSpans v units) k
        + spanAt v units (prefixLen (logicalSpans v units) k) := by
  show ((logicalSpans v units).take (k + 1)).sum = _
  rw [List.sum_take_succ _ k hk, spans_getElem_eq_spanAt v units k hk]
  rfl
theorem stringToCodePointsA_at_end (units : List Nat) :
    stringToCodePointsA .default units
        (units.length - (logicalSpans .default units).length)
        (logicalSpans .default units).length = [] := by
  cases hfl :
      units.length - (logicalSpans .default units).length with
  | zero => rfl
  | succ f =>
    rw [stringToCodePointsA_succ]
    rw [if_pos (by have := logicalSpans_length_le Variant.default units; omega)]
    rw [charCodeAt_none_of_le units _ (le_of_eq (lengthOf_eq _ units))]

theorem stringToCodePointsA_cpl (units : List Nat)
    (hval : ∀ u ∈ units, u ≠ 0) :
    ∀ (m k : Nat), (logicalSpans .default units).length - k ≤ m →
      k ≤ (logicalSpans .default units).length →
      wellPaired (units.drop (prefixLen (logicalSpans .default units) k))
        = true →
      stringToCodePointsA .default units (units.length - k) k
        = cpl (units.drop (prefixLen (logicalSpans .default units) k)) := by
  intro m
  induction m with
  | zero =>
    intro k hm hkle hw
    have hkL : k = (logicalSpans .default units).length := by omega
    subst hkL
    have hplen : prefixLen (logicalSpans .default units)
        (logicalSpans .default units).length = units.length := by
      rw [prefixLen_length, logicalSpans_sum]
    rw [hplen, List.drop_length, stringToCodePointsA_at_end units]
    rfl
  | succ m ih =>
    intro k hm hkle hw
    by_cases hkL : k = (logicalSpans .default units).length
    · subst hkL
      have hplen : prefixLen (logicalSpans .default units)
          (logicalSpans .default units).length = units.length := by
        rw [prefixLen_length, logicalSpans_sum]
      rw [hplen, List.drop_length, stringToCodePointsA_at_end units]
      rfl
    · have hk : k < (logicalSpans .default units).length := by omega
      have hall : ∀ s ∈ logicalSpans .default units, 1 ≤ s :=
        fun s hs => (logicalSpans_mem_bounds _ units s hs).1
      have hplt : prefixLen (logicalSpans .default units) k < units.length
          := by
        have := prefixLen_lt_sum hall hk
        rw [logicalSpans_sum] at this
        exact this
      have hcc := charCodeAt_lt units k hk
      cases hd : units.drop (prefixLen (logicalSpans .default units) k) with
      | nil => exact absurd hd (drop_ne_nil_of_lt hplt)
      | cons a tail =>
        rw [hd] at hcc hw
        have hklen : k < units.length := by
          have := logicalSpans_length_le Variant.default units
          omega
        have hfl : units.length - k = (units.length - (k + 1)) + 1 := by
          omega
        rw [hfl, stringToCodePointsA_succ, if_pos hklen]
        by_cases hh : isHighSurrogate a = true
        · cases tail with
          | nil =>
            exfalso
            simp [wellPaired, isSurrogate, hh] at hw
          | cons b rest2 =>
            obtain ⟨hbl, hw2⟩ := wellPaired_cons_high hh hw
            have hcc3 : charCodeAt .default units (k : Int)
                = some ((a - 0xD800) * 0x400 + (b + (0x10000 - 0xDC00)))
                := by
              rw [hcc]
              simp [hh]
            obtain ⟨e, he⟩ : ∃ e,
                (a - 0xD800) * 0x400 + (b + (0x10000 - 0xDC00)) = e + 1 :=
              ⟨(a - 0xD800) * 0x400 + (b + (0x10000 - 0xDC00)) - 1,
                by omega⟩
            rw [hcc3, he]
            show (e + 1)
                :: stringToCodePointsA .default units
                  (units.length - (k + 1)) (k + 1)
              = cpl (a :: b :: rest2)
            rw [← he, cpl_cons_pair rest2 hh hbl]
            have hpair : isSurrogatePairAt units
                (prefixLen (logicalSpans .default units) k) = true :=
              isSurrogatePairAt_of hd hh hbl
            have hsucc := prefixLen_succ_eq .default units k hk
            rw [spanAt_default_pair hpair] at hsucc
            have hdrop2 : units.drop
                (prefixLen (logicalSpans .default units) (k + 1)) = rest2
                := by
              rw [hsucc, ← List.drop_drop, hd]
              rfl
            rw [ih (k + 1) (by omega) (by omega)
              (by rw [hdrop2]; exact hw2), hdrop2]
            rfl
        · have hh2 : isHighSurrogate a = false := by simpa using hh
          obtain ⟨hsur, hw2⟩ := wellPaired_cons_nothigh hh2 hw
          have hcc3 : charCodeAt .default units (k : Int) = some a := by
            rw [hcc]
            simp [hh2]
          have hmem : a ∈ units := by
            have h1 : a ∈ units.drop
                (prefixLen (logicalSpans .default units) k) := by
              rw [hd]
              exact List.mem_cons_self a tail
            exact List.drop_subset _ units h1
          have ha0 : a ≠ 0 := hval a hmem
          obtain ⟨e, he⟩ : ∃ e, a = e + 1 := ⟨a - 1, by omega⟩
          rw [hcc3, he]
          show (e + 1)
              :: stringToCodePointsA .default units
                (units.length - (k + 1)) (k + 1)
            = cpl ((e + 1) :: tail)
          rw [← he, cpl_cons_single tail hh2]
          have hpairf : isSurrogatePairAt units
              (prefixLen (logicalSpans .default units) k) = false :=
            isSurrogatePairAt_not_of hd hh2
          have hsucc := prefixLen_succ_eq .default units k hk
          rw [spanAt_default_single hpairf] at hsucc
          have hdrop1 : units.drop
              (prefixLen (logicalSpans .default units) (k + 1)) = tail := by
            rw [hsucc, ← List.drop_drop, hd]
            rfl
          rw [ih (k + 1) (by omega) (by omega)
            (by rw [hdrop1]; exact hw2), hdrop1]

theorem stringToCodePoints_cpl (units : List Nat)
    (hval : ∀ u ∈ units, u ≠ 0) (hw : wellPaired units = true) :
    stringToCodePoints .default units = cpl units := by
  have h := stringToCodePointsA_cpl units hval
    (logicalSpans .default units).length 0 (by omega) (by omega)
    (by simpa [prefixLen_zero] using hw)
  simpa [stringToCodePoints, prefixLen_zero] using h

theorem codePointsToString_cons (x : Nat) (l : List Nat) :
    codePointsToString (x :: l)
      = stringFromCharCode x ++ codePointsToString l := by
  simp [codePointsToString]

theorem stringFromCharCode_small {a : Nat} (h : a ≤ 0xFFFF) :
    stringFromCharCode a = [a] := by
  unfold stringFromCharCode
  rw [if_neg (by omega)]

theorem stringFromCharCode_pair {a b : Nat}
    (ha : isHighSurrogate a = true) (hb : isLowSurrogate b = true) :
    stringFromCharCode (combineSurrogates a b) = [a, b] := by
  have ha2 : 0xD800 ≤ a ∧ a ≤ 0xDBFF := by
    simpa [isHighSurrogate] using ha
  have hb2 : 0xDC00 ≤ b ∧ b ≤ 0xDFFF := by
    simpa [isLowSurrogate] using hb
  have hgt : 0xFFFF < combineSurrogates a b := by
    unfold combineSurrogates
    omega
  unfold stringFromCharCode
  rw [if_pos hgt]
  have hsub : combineSurrogates a b - 0x10000
      = (a - 0xD800) * 1024 + (b - 0xDC00) := by
    unfold combineSurrogates
    omega
  rw [hsub]
  have hdiv : ((a - 0xD800) * 1024 + (b - 0xDC00)) >>> 10 = a - 0xD800 := by
    rw [Nat.shiftRight_eq_div_pow]
    rw [show (2 : Nat) ^ 10 = 1024 by norm_num]
    rw [Nat.mul_comm (a - 0xD800) 1024,
      Nat.mul_add_div (by norm_num : (0 : Nat) < 1024)]
    rw [Nat.div_eq_of_lt (by omega)]
    omega
  have hmod : ((a - 0xD800) * 1024 + (b - 0xDC00)) &&& 0x3FF = b - 0xDC00
      := by
    rw [show (0x3FF : Nat) = 2 ^ 10 - 1 by norm_num,
      Nat.and_pow_two_sub_one_eq_mod]
    rw [show (2 : Nat) ^ 10 = 1024 by norm_num]
    omega
  rw [hdiv, hmod]
  have h1 : 0xD800 + (a - 0xD800) = a := by omega
  have h2 : 0xDC00 + (b - 0xDC00) = b := by omega
  rw [h1, h2]

theorem codePointsToString_cpl_aux :
    ∀ (n : Nat) (units : List Nat), units.length ≤ n →
      (∀ u ∈ units, u < 0x10000) → wellPaired units = true →
      codePointsToString (cpl units) = units := by
  intro n
  induction n with
  | zero =>
    intro units h hval hw
    have hu : units = [] := List.eq_nil_of_length_eq_zero (by omega)
    subst hu
    rfl
  | succ n ih =>
    intro units h hval hw
    cases units with
    | nil => rfl
    | cons a tail =>
      cases tail with
      | nil =>
        rw [show cpl [a] = [a] from rfl, codePointsToString_cons,
          stringFromCharCode_small (by have := hval a (by simp); omega)]
        rfl
      | cons b rest =>
        by_cases hh : isHighSurrogate a = true
        · obtain ⟨hbl, hw2⟩ := wellPaired_cons_high hh hw
          rw [cpl_cons_pair rest hh hbl, codePointsToString_cons,
            stringFromCharCode_pair hh hbl]
          rw [ih rest (by simp at h; omega)
            (fun u hu => hval u (by simp [hu])) hw2]
          rfl
        · have hh2 : isHighSurrogate a = false := by simpa using hh
          obtain ⟨hsur, hw2⟩ := wellPaired_cons_nothigh hh2 hw
          rw [cpl_cons_single (b :: rest) hh2, codePointsToString_cons,
            stringFromCharCode_small (by have := hval a (by simp); omega)]
          rw [ih (b :: rest) (by simp at h ⊢; omega)
            (fun u hu => hval u (by simp at hu ⊢; tauto)) hw2]
          rfl

/-- C3 (amended): decoding to codepoints and re-encoding is the identity for
every text whose surrogates are all properly paired and which contains no
zero code unit: `codePointsToString(stringToCodePoints(T)) = T`.  (The
original claim fails on texts containing `U+0000`, because
`stringToCodePoints` stops at any falsy codepoint.) -/
theorem c3_codepoints_roundtrip (units : List Nat)
    (hval : ∀ u ∈ units, u ≠ 0 ∧ u < 0x10000)
    (hw : wellPaired units = true) :
    codePointsToString (stringToCodePoints .default units) = units := by
  rw [stringToCodePoints_cpl units (fun u hu => (hval u hu).1) hw]
  exact codePointsToString_cpl_aux units.length units (le_refl _)
    (fun u hu => (hval u hu).2) hw

theorem c3_codepoints_roundtrip_witness :
    codePointsToString
        (stringToCodePoints .default [0x61, 0xD83D, 0xDE42, 0x62])
      = [0x61, 0xD83D, 0xDE42, 0x62] :=
  c3_codepoints_roundtrip [0x61, 0xD83D, 0xDE42, 0x62] (by decide) (by decide)

theorem c3_codepoints_roundtrip_counterexample :
    wellPaired [0] = true ∧ (∀ u ∈ [0], u < 0x10000) ∧
      codePointsToString (stringToCodePoints .default [0]) ≠ [0] := by
  refine ⟨by decide, by decide, by decide⟩
theorem byteArrayA_zero : ∀ fuel, byteArrayA fuel 0 = [] := by
  intro fuel
  cases fuel with
  | zero => rfl
  | succ f => simp [byteArrayA]

theorem byteArrayA_succ (fuel chr : Nat) :
    byteArrayA (fuel + 1) chr
      = if 0 < chr then (chr &&& 0xFF) :: byteArrayA fuel (chr >>> 8)
        else [] := rfl

theorem and_255_eq_mod (n : Nat) : n &&& 0xFF = n % 256 := by
  rw [show (0xFF : Nat) = 2 ^ 8 - 1 by norm_num,
    Nat.and_pow_two_sub_one_eq_mod]

theorem shiftRight_8_eq_div (n : Nat) : n >>> 8 = n / 256 := by
  rw [Nat.shiftRight_eq_div_pow]

theorem byteArrayA_eq {u : Nat} (h0 : 0 < u) (hlt : u < 0x10000) :
    byteArrayA u u
      = if u < 256 then [u % 256] else [u % 256, u / 256] := by
  obtain ⟨f, hf⟩ : ∃ f, u = f + 1 := ⟨u - 1, by omega⟩
  subst hf
  rw [byteArrayA_succ, if_pos h0, and_255_eq_mod, shiftRight_8_eq_div]
  by_cases h : f + 1 < 256
  · rw [if_pos h, Nat.div_eq_of_lt h, byteArrayA_zero]
  · rw [if_neg h]
    have hq1 : 0 < (f + 1) / 256 := by omega
    have hq2 : (f + 1) / 256 < 256 := by omega
    obtain ⟨g, hg⟩ : ∃ g, f = g + 1 := ⟨f - 1, by omega⟩
    subst hg
    rw [byteArrayA_succ, if_pos hq1, and_255_eq_mod,
      shiftRight_8_eq_div]
    rw [Nat.mod_eq_of_lt hq2, Nat.div_eq_of_lt hq2, byteArrayA_zero]

theorem stringToBytes_cons (u : Nat) (rest : List Nat) :
    stringToBytes (u :: rest)
      = (if (byteArrayA u u).length = 1 then byteArrayA u u ++ [0]
          else byteArrayA u u).reverse ++ stringToBytes rest := rfl

theorem stringToBytes_cons_eq {u : Nat} (h0 : 0 < u) (hlt : u < 0x10000)
    (rest : List Nat) :
    stringToBytes (u :: rest)
      = u / 256 :: u % 256 :: stringToBytes rest := by
  rw [stringToBytes_cons, byteArrayA_eq h0 hlt]
  by_cases h : u < 256
  · rw [if_pos h]
    have hd : u / 256 = 0 := Nat.div_eq_of_lt h
    simp [hd]
  · rw [if_neg h]
    simp

theorem bytesToString_cons2 (hi low : Nat) (rest : List Nat) :
    bytesToString (hi :: low :: rest)
      = (((hi <<< 8) ||| low) % 0x10000) :: bytesToString rest := rfl

theorem decodePair {u : Nat} (hlt : u < 0x10000) :
    (((u / 256) <<< 8) ||| u % 256) % 0x10000 = u := by
  have h28 : (2 : Nat) ^ 8 = 256 := by norm_num
  have hb : u % 256 < 2 ^ 8 := by rw [h28]; omega
  have hor : 2 ^ 8 * (u / 256) ||| u % 256 = u := by
    rw [← Nat.mul_add_lt_is_or hb, h28]
    omega
  rw [Nat.shiftLeft_eq, Nat.mul_comm (u / 256) (2 ^ 8), hor]
  omega

/-- C4 (amended): for every text whose code units are all nonzero (and,
as 16-bit units, below `0x10000`), `stringToBytes` emits exactly two
big-endian bytes per code unit, so the byte list has length
`2 * codeUnitLength` and `bytesToString` inverts it.  (The original
unrestricted claim fails on texts containing the code unit `0`: the
`while (chr > 0)` loop emits no bytes at all for a zero unit.) -/
theorem c4_bytes_roundtrip (units : List Nat)
    (hval : ∀ u ∈ units, 0 < u ∧ u < 0x10000) :
    (stringToBytes units).length = 2 * units.length ∧
      bytesToString (stringToBytes units) = units := by
  induction units with
  | nil => exact ⟨rfl, rfl⟩
  | cons u rest ih =>
    obtain ⟨h0, hlt⟩ := hval u (List.mem_cons_self u rest)
    obtain ⟨ih1, ih2⟩ := ih (fun x hx => hval x (List.mem_cons_of_mem u hx))
    rw [stringToBytes_cons_eq h0 hlt, bytesToString_cons2]
    constructor
    · simp only [List.length_cons]
      omega
    · rw [decodePair hlt, ih2]

theorem c4_bytes_roundtrip_witness :
    (stringToBytes [0x61, 0xD83D, 0xDE42]).length
        = 2 * ([0x61, 0xD83D, 0xDE42] : List Nat).length ∧
      bytesToString (stringToBytes [0x61, 0xD83D, 0xDE42])
        = [0x61, 0xD83D, 0xDE42] :=
  c4_bytes_roundtrip [0x61, 0xD83D, 0xDE42] (by decide)

theorem c4_bytes_roundtrip_counterexample :
    (stringToBytes [0]).length ≠ 2 * ([0] : List Nat).length ∧
      bytesToString (stringToBytes [0]) ≠ [0] := by
  exact ⟨by decide, by decide⟩
theorem lengthOf_pos_of_ne_nil (v : Variant) (pad : List Nat)
    (hpad : pad ≠ []) : 1 ≤ lengthOf v pad := by
  rw [lengthOf_eq]
  have h1 : logicalSpans v pad ≠ [] := by
    rw [Ne, logicalSpans_eq_nil_iff]
    exact hpad
  have h2 := List.length_pos.mpr h1
  omega

theorem padEndA_succ (v : Variant) (pad : List Nat) (t : Int)
    (fuel : Nat) (s : List Nat) (i : Int) :
    padEndA v pad t (fuel + 1) s i
      = if lengthOf v (s ++ charAt v pad i) < t then
          padEndA v pad t fuel (s ++ charAt v pad i)
            (if lengthOf v pad ≤ i + 1 then 0 else i + 1)
        else some (s ++ charAt v pad i) := rfl

theorem padStartA_succ (v : Variant) (pad str : List Nat) (t : Int)
    (fuel : Nat) (fp : List Nat) (i : Int) :
    padStartA v pad str t (fuel + 1) fp i
      = if lengthOf v (fp ++ charAt v pad i ++ str) < t then
          padStartA v pad str t fuel (fp ++ charAt v pad i)
            (if lengthOf v pad ≤ i + 1 then 0 else i + 1)
        else some (fp ++ charAt v pad i ++ str) := rfl

theorem padEndA_total (v : Variant) (pad : List Nat) (t : Int)
    (hpad : pad ≠ []) :
    ∀ (fuel : Nat) (s : List Nat) (i : Int),
      0 ≤ i → i < lengthOf v pad →
      4 * t.toNat ≤ fuel + s.length → 1 ≤ fuel →
      ∃ r, padEndA v pad t fuel s i = some r ∧ t ≤ lengthOf v r := by
  have hpl := lengthOf_pos_of_ne_nil v pad hpad
  intro fuel
  induction fuel with
  | zero =>
    intro s i h1 h2 h3 h4
    omega
  | succ f ih =>
    intro s i h1 h2 h3 _
    have hne : charAt v pad i ≠ [] := charAt_ne_nil v pad i h1 h2
    have hlen1 : 0 < (charAt v pad i).length := List.length_pos.mpr hne
    have happ : (s ++ charAt v pad i).length
        = s.length + (charAt v pad i).length := List.length_append s _
    rw [padEndA_succ]
    by_cases hcond : lengthOf v (s ++ charAt v pad i) < t
    · rw [if_pos hcond]
      have hb := length_le_four_mul_lengthOf v (s ++ charAt v pad i)
      have h0 := lengthOf_nonneg v (s ++ charAt v pad i)
      have hf1 : 1 ≤ f := by omega
      have hbound : 4 * t.toNat ≤ f + (s ++ charAt v pad i).length := by
        omega
      by_cases hpi : lengthOf v pad ≤ i + 1
      · rw [if_pos hpi]
        exact ih (s ++ charAt v pad i) 0 le_rfl (by omega) hbound hf1
      · rw [if_neg hpi]
        exact ih (s ++ charAt v pad i) (i + 1) (by omega) (by omega)
          hbound hf1
    · rw [if_neg hcond]
      exact ⟨s ++ charAt v pad i, rfl, by omega⟩

theorem padStartA_total (v : Variant) (pad str : List Nat) (t : Int)
    (hpad : pad ≠ []) :
    ∀ (fuel : Nat) (fp : List Nat) (i : Int),
      0 ≤ i → i < lengthOf v pad →
      4 * t.toNat ≤ fuel + (fp ++ str).length → 1 ≤ fuel →
      ∃ r, padStartA v pad str t fuel fp i = some r ∧ t ≤ lengthOf v r := by
  have hpl := lengthOf_pos_of_ne_nil v pad hpad
  intro fuel
  induction fuel with
  | zero =>
    intro fp i h1 h2 h3 h4
    omega
  | succ f ih =>
    intro fp i h1 h2 h3 _
    have hne : charAt v pad i ≠ [] := charAt_ne_nil v pad i h1 h2
    have hlen1 : 0 < (charAt v pad i).length := List.length_pos.mpr hne
    have happ : (fp ++ charAt v pad i ++ str).length
        = fp.length + (charAt v pad i).length + str.length := by
      simp [List.length_append]
      omega
    have happ0 : (fp ++ str).length = fp.length + str.length :=
      List.length_append fp str
    have happ2 : (fp ++ charAt v pad i ++ str).length
        = (fp ++ charAt v pad i).length + str.length :=
      List.length_append _ str
    have happ3 : (fp ++ charAt v pad i).length
        = fp.length + (charAt v pad i).length := List.length_append fp _
    rw [padStartA_succ]
    by_cases hcond : lengthOf v (fp ++ charAt v pad i ++ str) < t
    · rw [if_pos hcond]
      have hb := length_le_four_mul_lengthOf v (fp ++ charAt v pad i ++ str)
      have h0 := lengthOf_nonneg v (fp ++ charAt v pad i ++ str)
      have hf1 : 1 ≤ f := by omega
      have hbound : 4 * t.toNat
          ≤ f + ((fp ++ charAt v pad i) ++ str).length := by
        omega
      by_cases hpi : lengthOf v pad ≤ i + 1
      · rw [if_pos hpi]
        exact ih (fp ++ charAt v pad i) 0 le_rfl (by omega) hbound hf1
      · rw [if_neg hpi]
        exact ih (fp ++ charAt v pad i) (i + 1) (by omega) (by omega)
          hbound hf1
    · rw [if_neg hcond]
      exact ⟨fp ++ charAt v pad i ++ str, rfl, by omega⟩

/-- C6 (amended): with a NON-EMPTY pad text, `padEnd` and `padStart`
terminate for every text and target length: they return the text
unchanged when the target length does not exceed its logical length, and
otherwise return a text whose logical length is at least the target;
moreover padStart("x", 3, "ab") = "abx".  (The original claim, stated
for every pad text, fails for the empty pad text: each loop iteration
then appends nothing and the loop never terminates — modelled here by
fuel exhaustion returning `none`.) -/
theorem c6_pad_termination (v : Variant) (str pad : List Nat) (t : Int)
    (hpad : pad ≠ []) :
    (t ≤ lengthOf v str →
        padEnd v str t pad = some str ∧ padStart v str t pad = some str) ∧
    (lengthOf v str < t →
        (∃ r, padEnd v str t pad = some r ∧ t ≤ lengthOf v r) ∧
        (∃ r, padStart v str t pad = some r ∧ t ≤ lengthOf v r)) ∧
    padStart .default [0x78] 3 [0x61, 0x62] = some [0x61, 0x62, 0x78] := by
  have hpl := lengthOf_pos_of_ne_nil v pad hpad
  refine ⟨fun hle => ?_, fun hlt => ?_, by decide⟩
  · unfold padEnd padStart
    rw [if_pos hle, if_pos hle]
    exact ⟨rfl, rfl⟩
  · constructor
    · unfold padEnd
      rw [if_neg (by omega)]
      exact padEndA_total v pad t hpad (4 * t.toNat + 1) str 0 le_rfl
        (by omega) (by omega) (by omega)
    · unfold padStart
      rw [if_neg (by omega)]
      exact padStartA_total v pad str t hpad (4 * t.toNat + 1) [] 0 le_rfl
        (by omega) (by simp only [List.nil_append]; omega) (by omega)

theorem c6_pad_termination_witness :
    ([0x61, 0x62] : List Nat) ≠ [] ∧
      padStart .default [0x78] 3 [0x61, 0x62] = some [0x61, 0x62, 0x78] :=
  ⟨by decide,
    (c6_pad_termination .default [0x78] [0x61, 0x62] 3 (by decide)).2.2⟩

theorem c6_pad_termination_counterexample :
    padEnd .default [0x78] 2 [] = none ∧
      padStart .default [0x78] 2 [] = none := by
  exact ⟨by decide, by decide⟩
end UtfString
